import Mathlib

/-!
Verification of the text-layout core of `hotas_map.py`
(`word_wrap`, `word_wrap_2`, `justify_to_point`, `justify_to_box`,
and both branches of `add_boxed_text`).

Modelling conventions:
* Python `str` is modelled as `List Char`.
* Pixel widths of characters are supplied by an abstract metric
  `cw : Char → Nat` (the program obtains them from
  `get_char_width(c, font)`, i.e. `font.getsize(c)[0]`, a non-negative
  pixel count; for a fixed font the memoised lookup is a pure function
  of the character).
* Python `int` arithmetic is `Int`; the float divisions of the
  non-wrapping branch are idealised as `ℚ` with explicit
  division-by-zero propagation (`Except`), and Python `int()` is
  truncation toward zero.
-/

/-- The whitespace class used by the program's regex `r"(\s+)"` and by
`str.strip`, restricted to the ASCII whitespace characters
(space, tab, newline, carriage return, vertical tab, form feed). -/
def isSpace (c : Char) : Bool :=
  c = ' ' || c = '\t' || c = '\n' || c = '\r' || c = '\x0b' || c = '\x0c'

/-- Sum of the per-character widths of a token: models
`sum(lookup[c] for c in token)` in `word_wrap`. -/
def widthSum (cw : Char → Nat) (t : List Char) : Nat :=
  (t.map cw).sum

/-- Models Python `text.splitlines()` for the line-break characters
`"\n"`, `"\r"` and the digraph `"\r\n"`: splits at the breaks,
consuming them, and produces no trailing empty line
(`"".splitlines() == []`, `"a\n".splitlines() == ["a"]`). -/
def splitlines : List Char → List (List Char)
  | [] => []
  | c :: cs =>
    if c = '\n' then [] :: splitlines cs
    else if c = '\r' then
      match cs with
      | c2 :: cs2 =>
        if c2 = '\n' then [] :: splitlines cs2
        else [] :: splitlines (c2 :: cs2)
      | [] => [[]]
    else
      match splitlines cs with
      | [] => [[c]]
      | l :: rest => (c :: l) :: rest

/-- Models `re.compile(r"(\s+)").split(line)`: the alternating list
`[tok, ws, tok, ws, ..., tok]` where the `tok` entries are the maximal
non-whitespace runs (possibly empty at either end) and the `ws`
entries are the maximal (nonempty) whitespace runs, kept because the
regex has a capturing group. -/
def splitWS : List Char → List (List Char)
  | [] => [[]]
  | c :: cs =>
    let r := splitWS cs
    if isSpace c then
      match r with
      | [] :: w :: rest => [] :: (c :: w) :: rest
      | _ => [] :: [c] :: r
    else
      match r with
      | t :: rest => (c :: t) :: rest
      | [] => [[c]]

/-- Pairs each non-whitespace token with the whitespace run that
follows it.  The odd-length output of `splitWS` together with the
`tokens.append("")` of the source makes the final token pair with the
empty string. -/
def toPairs : List (List Char) → List (List Char × List Char)
  | [] => []
  | [t] => [(t, [])]
  | t :: w :: rest => (t, w) :: toPairs rest

/-- Concatenation of a pair list back into the characters it covers. -/
def joinPairs : List (List Char × List Char) → List Char
  | [] => []
  | (t, w) :: rest => t ++ w ++ joinPairs rest

/-- Concatenation of a token list. -/
def joinToks : List (List Char) → List Char
  | [] => []
  | t :: rest => t ++ joinToks rest

/-- The inner token loop of `word_wrap` (`for index in range(0, len(tokens), 2)`
plus the trailing `if start < len(tokens)` emission).  State:
* `cur`    = `"".join(tokens[start:index])`, the text of current output line,
* `total`  = the running pixel width `total`,
* `isFirst` = `index == start` (no token placed on the current line yet),
* `acc`    = lines emitted so far, in reverse order. -/
def wrapLineGo (cw : Char → Nat) (width : Int) :
    List (List Char × List Char) → List Char → Nat → Bool →
    List (List Char) → List (List Char)
  | [], cur, _, isFirst, acc =>
    if isFirst then acc.reverse else (cur :: acc).reverse
  | (t, w) :: rest, cur, total, isFirst, acc =>
    if (total + widthSum cw t : Int) > width then
      if isFirst then
        wrapLineGo cw width rest [] 0 true ((t ++ w) :: acc)
      else
        wrapLineGo cw width rest (t ++ w) (widthSum cw t + widthSum cw w)
          false (cur :: acc)
    else
      wrapLineGo cw width rest (cur ++ t ++ w)
        (total + (widthSum cw t + widthSum cw w)) false acc

/-- One explicit line of `word_wrap`: split into tokens (with the
appended empty token) and run the greedy loop. -/
def wrapLine (cw : Char → Nat) (width : Int) (line : List Char) :
    List (List Char) :=
  wrapLineGo cw width (toPairs (splitWS line)) [] 0 true []

/-- `s.dropWhile isSpace`: models the left half of Python `str.strip()`. -/
def stripLeading (s : List Char) : List Char := s.dropWhile isSpace

/-- Models the right half of Python `str.strip()`. -/
def stripTrailing (s : List Char) : List Char :=
  (s.reverse.dropWhile isSpace).reverse

/-- Models Python `str.strip()` (both ends). -/
def strip (s : List Char) : List Char := stripLeading (stripTrailing s)

/-- The `word_wrap` function of `hotas_map.py`:
wrap each explicit line independently, strip every produced line, and
return `[""]` instead of an empty list (`return lines or [""]`).
The font argument of the source is represented by the per-character
width function `cw`. -/
def word_wrap (cw : Char → Nat) (width : Int) (text : List Char) :
    List (List Char) :=
  let ls := ((splitlines text).map (wrapLine cw width)).flatten
  let stripped := ls.map strip
  if stripped.isEmpty then [[]] else stripped

/-- Models `" ".join(text.split("\n"))` from `word_wrap_2`: every
newline character is replaced by a single space. -/
def replaceNl (s : List Char) : List Char :=
  s.map (fun c => if c = '\n' then ' ' else c)

/-- Models `"\n".join(lines)`. -/
def joinNl : List (List Char) → List Char
  | [] => []
  | [l] => l
  | l :: ls => l ++ '\n' :: joinNl ls

/-- Models `" ".join(lines)`. -/
def joinSp : List (List Char) → List Char
  | [] => []
  | [l] => l
  | l :: ls => l ++ ' ' :: joinSp ls

/-- The `word_wrap_2` function of `hotas_map.py`: collapse explicit
newlines to spaces, wrap, and rejoin with newlines. -/
def word_wrap_2 (cw : Char → Nat) (width : Int) (text : List Char) :
    List Char :=
  joinNl (word_wrap cw width (replaceNl text))

/-- The ordered list of maximal non-whitespace runs (words) of a string. -/
def tokensOf : List Char → List (List Char)
  | [] => []
  | [c] => if isSpace c then [] else [[c]]
  | c :: c2 :: cs =>
    if isSpace c then tokensOf (c2 :: cs)
    else if isSpace c2 then [c] :: tokensOf (c2 :: cs)
    else
      match tokensOf (c2 :: cs) with
      | t :: ts => (c :: t) :: ts
      | [] => [[c]]

/-- `part` occurs contiguously (verbatim) inside `whole`. -/
def ContigSub (part whole : List Char) : Prop :=
  ∃ u v, whole = u ++ part ++ v

/-- Every character of the token is non-whitespace. -/
def AllNW (t : List Char) : Prop := ∀ c ∈ t, isSpace c = false

/-- Every character of the token is whitespace. -/
def AllWS (t : List Char) : Prop := ∀ c ∈ t, isSpace c = true

/-- Well-formedness of a `splitWS` result: alternating nonws/ws tokens,
interior whitespace runs nonempty, odd length. -/
def WfToks : List (List Char) → Prop
  | [] => False
  | [t] => AllNW t
  | t :: w :: rest => AllNW t ∧ AllWS w ∧ w ≠ [] ∧ WfToks rest

/-- Well-formedness of a pair list produced by `toPairs ∘ splitWS`:
every token is non-whitespace, every separator is whitespace, and all
separators except the final one are nonempty. -/
def WfPairs : List (List Char × List Char) → Prop
  | [] => True
  | [p] => AllNW p.1 ∧ AllWS p.2
  | p :: q :: rest => AllNW p.1 ∧ AllWS p.2 ∧ p.2 ≠ [] ∧ WfPairs (q :: rest)

/-- Is the last character of the string a whitespace character?
(Empty strings qualify; used for token-boundary splitting.) -/
def endsWS : List Char → Bool
  | [] => true
  | [c] => isSpace c
  | _ :: c2 :: cs => endsWS (c2 :: cs)

/-- Join two fragments with a single space, omitting the space when a
side is empty (the gluing operation of `" ".join`). -/
def glue (a b : List Char) : List Char :=
  if a = [] then b else if b = [] then a else a ++ ' ' :: b

/-- The `splitWS` image of a single-space-separated token list. -/
def interleaveSp : List (List Char) → List (List Char)
  | [] => [[]]
  | [t] => [t]
  | t :: ts => t :: [' '] :: interleaveSp ts

/-- The `toPairs` image of a single-space-separated token list. -/
def mkPairs : List (List Char) → List (List Char × List Char)
  | [] => []
  | [t] => [(t, [])]
  | t :: ts => (t, [' ']) :: mkPairs ts

/-- `justify_to_point` from `hotas_map.py`:
starting coordinate of an item of size `itemsize` aligned to `point`
with justification `just`. -/
def justify_to_point (point itemsize just : ℚ) : ℚ :=
  point - itemsize * just

/-- `justify_to_box` from `hotas_map.py`. -/
def justify_to_box (boxstart boxsize itemsize just : ℚ) : ℚ :=
  boxstart + (boxsize - itemsize) * just

/-- Python `int()` applied to a rational: truncation toward zero. -/
def truncRat (q : ℚ) : Int := Int.tdiv q.num q.den

/-- Python division: raises `ZeroDivisionError` on a zero divisor,
otherwise exact rational division (idealising float division). -/
def pyDivQ (a b : ℚ) : Except String ℚ :=
  if b = 0 then Except.error "division by zero" else Except.ok (a / b)

/-- Result of the non-wrapping branch of `add_boxed_text`: the chosen
font size and the text that is drawn. -/
structure NoWrapResult where
  fontsize : Int
  text : List Char
  deriving DecidableEq, Repr

/-- The non-wrapping (scale-to-fit) branch of `add_boxed_text`
(lines 1324-1337): measure the text at the reference size 16 via the
abstract metric `measure : fontsize → text → (width, height)`, compare
the text/box aspect ratios with float division, and truncate the
rescaled size to an integer.  Division by zero propagates as the
Python exception would. -/
def add_boxed_text_scale_branch (measure : Int → List Char → Int × Int)
    (text : List Char) (boxwidth boxheight : Int) :
    Except String NoWrapResult :=
  let base_fontsize : Int := 16
  let basetextwidth := (measure base_fontsize text).1
  let basetextheight := (measure base_fontsize text).2
  do
    let r1 ← pyDivQ (basetextwidth : ℚ) (boxwidth : ℚ)
    let r2 ← pyDivQ (basetextheight : ℚ) (boxheight : ℚ)
    if r1 > r2 then
      let q ← pyDivQ ((base_fontsize : ℚ) * (boxwidth : ℚ)) (basetextwidth : ℚ)
      pure ⟨truncRat q, text⟩
    else
      let q ← pyDivQ ((base_fontsize : ℚ) * (boxheight : ℚ)) (basetextheight : ℚ)
      pure ⟨truncRat q, text⟩

/-- `add_boxed_text` in non-wrapping mode, including the `if not text:
return` guard (`none` = nothing drawn). -/
def add_boxed_text_nowrap (measure : Int → List Char → Int × Int)
    (text : List Char) (boxwidth boxheight : Int) :
    Option (Except String NoWrapResult) :=
  if text = [] then none
  else some (add_boxed_text_scale_branch measure text boxwidth boxheight)

/-- Modelled from the spec: the scale-to-fit size of §4.2 — "if
text-width-to-box-width ratio exceeds text-height-to-box-height ratio
... the new size is `reference_size * box_width / measured_width`;
otherwise ... `reference_size * box_height / measured_height`", sizes
truncated to integers, reference size 16. -/
def specScaleSize (measuredW measuredH boxW boxH : Int) : Int :=
  if (measuredW : ℚ) / (boxW : ℚ) > (measuredH : ℚ) / (boxH : ℚ) then
    truncRat ((16 : ℚ) * (boxW : ℚ) / (measuredW : ℚ))
  else
    truncRat ((16 : ℚ) * (boxH : ℚ) / (measuredH : ℚ))

/-- State of the wrapping-mode font-size search of `add_boxed_text`
(lines 1291-1323): the candidate size, the two recorded size lists and
the two memoisation dictionaries (`cache_font`, `cache_wrapped`). -/
structure FitState (Font Text : Type) where
  fontsize : Int
  successful : List Int
  unsuccessful : List Int
  cacheFont : List (Int × Font)
  cacheWrapped : List (Int × Text)

/-- Dictionary lookup, models `d[k]` succeeding iff `k` is a key. -/
def dictLookup (k : Int) : List (Int × α) → Option α
  | [] => none
  | (k2, v) :: rest => if k = k2 then some v else dictLookup k rest

/-- One iteration of the `while fontsize not in successful_sizes` loop
of `add_boxed_text` in wrapping mode.  Abstract collaborators:
`getFont` = `get_font(ttf, ·)`, `wrapAt` =
`word_wrap_2(text, boxwidth, get_font(ttf, ·))` as a function of the
size, `textsize` = `draw.textsize`. -/
def fitStep (getFont : Int → Font) (wrapAt : Int → Text)
    (textsize : Text → Font → Int × Int) (boxwidth boxheight stp : Int)
    (s : FitState Font Text) : FitState Font Text :=
  if s.fontsize ∈ s.unsuccessful then
    { s with fontsize := s.fontsize - 1 }
  else
    let font := getFont s.fontsize
    let cf1 := (s.fontsize, font) :: s.cacheFont
    let wrapped := wrapAt s.fontsize
    let tw := (textsize wrapped font).1
    let th := (textsize wrapped font).2
    if tw > boxwidth ∨ th > boxheight then
      { s with cacheFont := cf1,
               unsuccessful := s.unsuccessful ++ [s.fontsize],
               fontsize := s.fontsize - 1 }
    else
      { s with cacheFont := (s.fontsize, font) :: cf1,
               cacheWrapped := (s.fontsize, wrapped) :: s.cacheWrapped,
               successful := s.successful ++ [s.fontsize],
               fontsize := s.fontsize + stp }

/-- Fuel-bounded execution of the search loop; `some s` is reached
exactly when the loop guard `fontsize not in successful_sizes` fails,
returning the final loop state. -/
def runFit (getFont : Int → Font) (wrapAt : Int → Text)
    (textsize : Text → Font → Int × Int) (boxwidth boxheight stp : Int) :
    Nat → FitState Font Text → Option (FitState Font Text)
  | 0, _ => none
  | n + 1, s =>
    if s.fontsize ∈ s.successful then some s
    else runFit getFont wrapAt textsize boxwidth boxheight stp n
      (fitStep getFont wrapAt textsize boxwidth boxheight stp s)

/-- The loop state on entry: `fontsize = base_fontsize` (16 in the
source), empty size lists and empty caches. -/
def initFitState {Font Text : Type} (base : Int) : FitState Font Text :=
  ⟨base, [], [], [], []⟩

/-- The fit test of one candidate size: the wrapped text measured with
that size's font fits the box in both dimensions. -/
def FitsAt (getFont : Int → Font) (wrapAt : Int → Text)
    (textsize : Text → Font → Int × Int) (boxwidth boxheight : Int)
    (z : Int) : Prop :=
  (textsize (wrapAt z) (getFont z)).1 ≤ boxwidth ∧
    (textsize (wrapAt z) (getFont z)).2 ≤ boxheight

/-- The search loop never terminates on any amount of fuel. -/
def SearchDiverges (getFont : Int → Font) (wrapAt : Int → Text)
    (textsize : Text → Font → Int × Int)
    (boxwidth boxheight stp base : Int) : Prop :=
  ∀ n, runFit getFont wrapAt textsize boxwidth boxheight stp n
      (initFitState base) = none

/-- An explicit fuel bound sufficient for the search to finish, in
terms of a known fitting size `lo` and an upper bound `hi` above which
the candidate size never travels. -/
def fitFuel (lo hi stp : Int) : Nat :=
  ((hi - lo).toNat + 1) * ((hi - lo).toNat + stp.toNat + 2) +
    (hi - lo).toNat + 1

/-- The wrap-mode search instantiated with the program's own wrapper:
`wrapAt` is `word_wrap_2(text, boxwidth, font)` for the font of each
candidate size (per-size character widths `cwAt`), as in the source. -/
def add_boxed_text_wrap_search (cwAt : Int → Char → Nat)
    (textsize : List Char → Int → Int × Int) (text : List Char)
    (boxwidth boxheight stp : Int) (fuel : Nat) :
    Option (FitState Int (List Char)) :=
  runFit (fun z => z) (fun z => word_wrap_2 (cwAt z) boxwidth text)
    textsize boxwidth boxheight stp fuel (initFitState 16)

/-- Uniform unit character width, a concrete metric for witnesses. -/
def cw1 : Char → Nat := fun _ => 1

/-- Concrete metric for the 10-14 box-fit scenario: sizes 10..14 fit
(measured extent (0,0)), all other sizes overflow a 0×0 box. -/
def c3textsize : Unit → Int → Int × Int :=
  fun _ f => if 10 ≤ f ∧ f ≤ 14 then (0, 0) else (1, 0)

/-- The 10-14 scenario run (base size 16, step 5, ample fuel). -/
def c3run : Option (FitState Int Unit) :=
  runFit (fun z => z) (fun _ => ()) c3textsize 0 0 5 20 (initFitState 16)

/-- The final state of the 10-14 scenario run. -/
def c3sigma : FitState Int Unit := c3run.getD (initFitState 16)

/-- Concrete metric where the measured square extent equals the font
size, so a size fits a 20×20 box exactly when it is at most 20. -/
def c2textsize : Unit → Int → Int × Int := fun _ f => (f, f)

/-- Invariant of the termination argument for the wrapping-mode
search: the candidate size stays in `[lo, hi]`, recorded unsuccessful
sizes genuinely fail the fit test and recorded successful sizes pass
it. -/
def FitInv (getFont : Int → Font) (wrapAt : Int → Text)
    (textsize : Text → Font → Int × Int) (boxwidth boxheight : Int)
    (lo hi : Int) (s : FitState Font Text) : Prop :=
  lo ≤ s.fontsize ∧ s.fontsize ≤ hi ∧
    (∀ u ∈ s.unsuccessful,
      ¬ FitsAt getFont wrapAt textsize boxwidth boxheight u) ∧
    (∀ x ∈ s.successful, FitsAt getFont wrapAt textsize boxwidth boxheight x)

/-- Decreasing measure for the search loop: number of still-untested
sizes in `[lo, hi]`, weighted, plus the distance of the candidate size
from `lo`. -/
def fitMeasure (lo hi stp : Int) (s : FitState Font Text) : Nat :=
  ((Finset.Icc lo hi).filter
      (fun z => z ∉ s.successful ∧ z ∉ s.unsuccessful)).card *
      ((hi - lo).toNat + stp.toNat + 2) +
    (s.fontsize - lo).toNat

/-- Claim C8: the five justification identities — aligning at
justification 0 leaves the anchor coordinate, at 1 subtracts the item
size, at 0.5 subtracts half of it; box justification 0 starts at the
box start and 1 at the far edge minus the item size. -/
theorem claim_C8_justify_identities :
    ∀ p s b boxsize itemsize : ℚ,
      justify_to_point p s 0 = p ∧
      justify_to_point p s 1 = p - s ∧
      justify_to_point p s (1 / 2) = p - s / 2 ∧
      justify_to_box b boxsize itemsize 0 = b ∧
      justify_to_box b boxsize itemsize 1 = b + boxsize - itemsize := by
  intro p s b boxsize itemsize
  refine ⟨?_, ?_, ?_, ?_, ?_⟩ <;>
    simp only [justify_to_point, justify_to_box] <;> ring

/-- Claim C9: `word_wrap` of the empty string is exactly `[""]`, and
for every input the result has at least one line. -/
theorem claim_C9_empty_input_and_nonempty_output :
    ∀ (cw : Char → Nat) (width : Int),
      word_wrap cw width [] = [[]] ∧
      ∀ t : List Char, 1 ≤ (word_wrap cw width t).length := by
  intro cw width
  refine ⟨rfl, ?_⟩
  intro t
  have hww : word_wrap cw width t =
      (if (((splitlines t).map (wrapLine cw width)).flatten.map strip).isEmpty
          = true
        then [[]]
        else ((splitlines t).map (wrapLine cw width)).flatten.map strip) := rfl
  rw [hww]
  split
  · simp
  · rename_i hne
    cases hl : (((splitlines t).map (wrapLine cw width)).flatten.map strip) with
    | nil => rw [hl] at hne; simp at hne
    | cons a as => simp

/-- Claim C1 (evaluation of the code at the failing input): with a
non-empty text measuring 100×20 at the reference size and a degenerate
box of zero width, the non-wrapping branch of `add_boxed_text` raises
ZeroDivisionError in its ratio computation rather than returning the
base size 16 unchanged. -/
theorem claim_C1_zero_width_box_divides_by_zero :
    add_boxed_text_nowrap (fun _ _ => (100, 20)) ['A'] 0 50 =
      some (Except.error "division by zero") := rfl

/-- Claim C6: in non-wrapping mode, with non-degenerate box and
non-zero measured extent, `add_boxed_text` chooses exactly the
spec-side scale-to-fit size (aspect-ratio comparison, truncated
integer rescale from reference size 16), returns it without further
iteration, and draws the input text unchanged. -/
theorem claim_C6_scale_branch_formula
    (measure : Int → List Char → Int × Int) (text : List Char)
    (boxwidth boxheight : Int)
    (htext : text ≠ []) (hbw : boxwidth ≠ 0) (hbh : boxheight ≠ 0)
    (hw : (measure 16 text).1 ≠ 0) (hh : (measure 16 text).2 ≠ 0) :
    add_boxed_text_nowrap measure text boxwidth boxheight =
      some (Except.ok
        ⟨specScaleSize (measure 16 text).1 (measure 16 text).2
          boxwidth boxheight, text⟩) := by
  have hbw' : (boxwidth : ℚ) ≠ 0 := Int.cast_ne_zero.mpr hbw
  have hbh' : (boxheight : ℚ) ≠ 0 := Int.cast_ne_zero.mpr hbh
  have hw' : ((measure 16 text).1 : ℚ) ≠ 0 := Int.cast_ne_zero.mpr hw
  have hh' : ((measure 16 text).2 : ℚ) ≠ 0 := Int.cast_ne_zero.mpr hh
  unfold add_boxed_text_nowrap add_boxed_text_scale_branch specScaleSize pyDivQ
  rw [if_neg htext]
  simp only [if_neg hbw', if_neg hbh', if_neg hw', if_neg hh']
  simp only [bind, Except.bind, pure, Except.pure]
  push_cast
  split <;> rfl

/-- Witness for C6 at a concrete metric: text measuring 200×20 at
size 16 in a 100×20 box. -/
theorem claim_C6_witness :
    add_boxed_text_nowrap (fun _ _ => (200, 20)) ['A'] 100 20 =
      some (Except.ok ⟨specScaleSize 200 20 100 20, ['A']⟩) :=
  claim_C6_scale_branch_formula (fun _ _ => (200, 20)) ['A'] 100 20
    (by decide) (by decide) (by decide) (by decide) (by decide)

/-- Exit analysis of `runFit`: an invariant preserved by `fitStep`
(whenever the loop continues) holds at exit, and the exit `fontsize`
is a member of `successful_sizes` — the negation of the loop guard. -/
theorem runFit_inv {Font Text : Type} (getFont : Int → Font)
    (wrapAt : Int → Text) (textsize : Text → Font → Int × Int)
    (boxwidth boxheight stp : Int) (P : FitState Font Text → Prop)
    (hstep : ∀ s, s.fontsize ∉ s.successful → P s →
      P (fitStep getFont wrapAt textsize boxwidth boxheight stp s)) :
    ∀ (n : Nat) (s sf : FitState Font Text), P s →
      runFit getFont wrapAt textsize boxwidth boxheight stp n s = some sf →
      P sf ∧ sf.fontsize ∈ sf.successful := by
  intro n
  induction n with
  | zero => intro s sf _ h; simp [runFit] at h
  | succ n ih =>
    intro s sf hP h
    rw [runFit] at h
    by_cases hm : s.fontsize ∈ s.successful
    · rw [if_pos hm] at h
      obtain rfl : s = sf := Option.some.inj h
      exact ⟨hP, hm⟩
    · rw [if_neg hm] at h
      exact ih _ _ (hstep s hm hP) h

/-- `fitStep` when the candidate size is already known unsuccessful:
only the size is decremented. -/
theorem fitStep_skip {Font Text : Type} {getFont : Int → Font}
    {wrapAt : Int → Text} {textsize : Text → Font → Int × Int}
    {boxwidth boxheight stp : Int} {s : FitState Font Text}
    (hu : s.fontsize ∈ s.unsuccessful) :
    fitStep getFont wrapAt textsize boxwidth boxheight stp s =
      { s with fontsize := s.fontsize - 1 } := by
  unfold fitStep
  rw [if_pos hu]

/-- `fitStep` on a fresh size that fails the fit test: the size is
recorded unsuccessful (after its font is cached) and decremented. -/
theorem fitStep_fail {Font Text : Type} {getFont : Int → Font}
    {wrapAt : Int → Text} {textsize : Text → Font → Int × Int}
    {boxwidth boxheight stp : Int} {s : FitState Font Text}
    (hu : s.fontsize ∉ s.unsuccessful)
    (hc : ¬ FitsAt getFont wrapAt textsize boxwidth boxheight s.fontsize) :
    fitStep getFont wrapAt textsize boxwidth boxheight stp s =
      { s with cacheFont := (s.fontsize, getFont s.fontsize) :: s.cacheFont,
               unsuccessful := s.unsuccessful ++ [s.fontsize],
               fontsize := s.fontsize - 1 } := by
  have hc2 : (textsize (wrapAt s.fontsize) (getFont s.fontsize)).1 > boxwidth ∨
      (textsize (wrapAt s.fontsize) (getFont s.fontsize)).2 > boxheight := by
    by_contra hcon
    push_neg at hcon
    exact hc ⟨hcon.1, hcon.2⟩
  unfold fitStep
  rw [if_neg hu]
  simp only []
  rw [if_pos hc2]

/-- `fitStep` on a fresh size that passes the fit test: the size is
recorded successful, its font and wrapped text are cached, and the
size is increased by the trial step. -/
theorem fitStep_success {Font Text : Type} {getFont : Int → Font}
    {wrapAt : Int → Text} {textsize : Text → Font → Int × Int}
    {boxwidth boxheight stp : Int} {s : FitState Font Text}
    (hu : s.fontsize ∉ s.unsuccessful)
    (hc : FitsAt getFont wrapAt textsize boxwidth boxheight s.fontsize) :
    fitStep getFont wrapAt textsize boxwidth boxheight stp s =
      { s with cacheFont := (s.fontsize, getFont s.fontsize) ::
                 (s.fontsize, getFont s.fontsize) :: s.cacheFont,
               cacheWrapped := (s.fontsize, wrapAt s.fontsize) ::
                 s.cacheWrapped,
               successful := s.successful ++ [s.fontsize],
               fontsize := s.fontsize + stp } := by
  have hc2 : ¬ ((textsize (wrapAt s.fontsize) (getFont s.fontsize)).1 > boxwidth ∨
      (textsize (wrapAt s.fontsize) (getFont s.fontsize)).2 > boxheight) := by
    push_neg
    exact ⟨hc.1, hc.2⟩
  unfold fitStep
  rw [if_neg hu]
  simp only []
  rw [if_neg hc2]

/-- Claim C3 preservation step: every recorded successful size stays
at most the current candidate size. -/
theorem fitStep_le_preserve {Font Text : Type} {getFont : Int → Font}
    {wrapAt : Int → Text} {textsize : Text → Font → Int × Int}
    {boxwidth boxheight stp : Int} (hstp : 0 ≤ stp)
    (s : FitState Font Text) (hm : s.fontsize ∉ s.successful)
    (hP : ∀ x ∈ s.successful, x ≤ s.fontsize) :
    ∀ x ∈ (fitStep getFont wrapAt textsize boxwidth boxheight stp s).successful,
      x ≤ (fitStep getFont wrapAt textsize boxwidth boxheight stp s).fontsize := by
  by_cases hu : s.fontsize ∈ s.unsuccessful
  · rw [fitStep_skip hu]
    intro x hx
    have h1 := hP x hx
    have h2 : x ≠ s.fontsize := fun e => hm (e ▸ hx)
    simp only
    omega
  · by_cases hc : FitsAt getFont wrapAt textsize boxwidth boxheight s.fontsize
    · rw [fitStep_success hu hc]
      intro x hx
      simp only at hx ⊢
      rcases List.mem_append.mp hx with h | h
      · have := hP x h; omega
      · simp at h; omega
    · rw [fitStep_fail hu hc]
      intro x hx
      simp only at hx ⊢
      have h1 := hP x hx
      have h2 : x ≠ s.fontsize := fun e => hm (e ▸ hx)
      omega

/-- Claim C3: whenever the wrapping-mode font-size search terminates,
the size used for drawing is a recorded successful size and is the
largest one recorded; and in the concrete scenario where exactly the
sizes 10-14 fit (15 and above overflow), the search started at base
size 16 with trial step 5 exits with size 14. -/
theorem claim_C3_returns_largest_successful :
    (∀ {Font Text : Type} (getFont : Int → Font) (wrapAt : Int → Text)
        (textsize : Text → Font → Int × Int) (boxwidth boxheight stp base : Int),
      0 ≤ stp → ∀ (n : Nat) (sf : FitState Font Text),
        runFit getFont wrapAt textsize boxwidth boxheight stp n
            (initFitState base) = some sf →
          sf.fontsize ∈ sf.successful ∧ ∀ x ∈ sf.successful, x ≤ sf.fontsize) ∧
    c3run.map (fun s => s.fontsize) = some 14 := by
  constructor
  · intro Font Text getFont wrapAt textsize boxwidth boxheight stp base hstp n sf h
    have := runFit_inv getFont wrapAt textsize boxwidth boxheight stp
      (fun s => ∀ x ∈ s.successful, x ≤ s.fontsize)
      (fun s hm hP => fitStep_le_preserve hstp s hm hP)
      n (initFitState base) sf (by intro x hx; simp [initFitState] at hx) h
    exact ⟨this.2, this.1⟩
  · decide

/-- Witness for C3: in the 10-14 scenario the search terminates and
its exit size is one of the recorded successful sizes. -/
theorem claim_C3_witness : c3sigma.fontsize ∈ c3sigma.successful :=
  ((claim_C3_returns_largest_successful.1 (fun z => z) (fun _ => ())
    c3textsize 0 0 5 16 (by decide) 20 c3sigma rfl).1)

/-- Adding a cache entry never invalidates an existing key. -/
theorem dictLookup_cons_isSome {α : Type} {k : Int} {l : List (Int × α)}
    (h : (dictLookup k l).isSome = true) (k2 : Int) (v : α) :
    (dictLookup k ((k2, v) :: l)).isSome = true := by
  unfold dictLookup
  by_cases he : k = k2
  · rw [if_pos he]; rfl
  · rw [if_neg he]; exact h

/-- A freshly added cache entry is found. -/
theorem dictLookup_cons_self {α : Type} (k : Int) (v : α)
    (l : List (Int × α)) :
    (dictLookup k ((k, v) :: l)).isSome = true := by
  unfold dictLookup
  rw [if_pos rfl]
  rfl

/-- Claim C10 preservation step: every recorded successful size is a
key of both `cache_font` and `cache_wrapped`. -/
theorem fitStep_cache_preserve {Font Text : Type} {getFont : Int → Font}
    {wrapAt : Int → Text} {textsize : Text → Font → Int × Int}
    {boxwidth boxheight stp : Int}
    (s : FitState Font Text) (_hm : s.fontsize ∉ s.successful)
    (hP : ∀ x ∈ s.successful, (dictLookup x s.cacheFont).isSome = true ∧
      (dictLookup x s.cacheWrapped).isSome = true) :
    ∀ x ∈ (fitStep getFont wrapAt textsize boxwidth boxheight stp s).successful,
      (dictLookup x (fitStep getFont wrapAt textsize boxwidth boxheight stp
        s).cacheFont).isSome = true ∧
      (dictLookup x (fitStep getFont wrapAt textsize boxwidth boxheight stp
        s).cacheWrapped).isSome = true := by
  by_cases hu : s.fontsize ∈ s.unsuccessful
  · rw [fitStep_skip hu]
    intro x hx
    exact hP x hx
  · by_cases hc : FitsAt getFont wrapAt textsize boxwidth boxheight s.fontsize
    · rw [fitStep_success hu hc]
      intro x hx
      simp only at hx ⊢
      rcases List.mem_append.mp hx with h | h
      · obtain ⟨hf, hw⟩ := hP x h
        exact ⟨dictLookup_cons_isSome (dictLookup_cons_isSome hf _ _) _ _,
          dictLookup_cons_isSome hw _ _⟩
      · simp at h
        subst h
        exact ⟨dictLookup_cons_self _ _ _, dictLookup_cons_self _ _ _⟩
    · rw [fitStep_fail hu hc]
      intro x hx
      simp only at hx ⊢
      obtain ⟨hf, hw⟩ := hP x hx
      exact ⟨dictLookup_cons_isSome hf _ _, hw⟩

/-- Claim C10: along the wrapping-mode search, every size recorded in
`successful_sizes` is a key of both `cache_font` and `cache_wrapped`;
hence at loop exit (when the current size is in `successful_sizes`)
the lookups `cache_font[fontsize]` and `cache_wrapped[fontsize]` both
succeed. -/
theorem claim_C10_cache_keys_invariant :
    ∀ {Font Text : Type} (getFont : Int → Font) (wrapAt : Int → Text)
      (textsize : Text → Font → Int × Int) (boxwidth boxheight stp base : Int)
      (n : Nat) (sf : FitState Font Text),
      runFit getFont wrapAt textsize boxwidth boxheight stp n
          (initFitState base) = some sf →
        (∀ x ∈ sf.successful, (dictLookup x sf.cacheFont).isSome = true ∧
          (dictLookup x sf.cacheWrapped).isSome = true) ∧
        (dictLookup sf.fontsize sf.cacheFont).isSome = true ∧
        (dictLookup sf.fontsize sf.cacheWrapped).isSome = true := by
  intro Font Text getFont wrapAt textsize boxwidth boxheight stp base n sf h
  have := runFit_inv getFont wrapAt textsize boxwidth boxheight stp
    (fun s => ∀ x ∈ s.successful, (dictLookup x s.cacheFont).isSome = true ∧
      (dictLookup x s.cacheWrapped).isSome = true)
    (fun s hm hP => fitStep_cache_preserve s hm hP)
    n (initFitState base) sf (by intro x hx; simp [initFitState] at hx) h
  exact ⟨this.1, this.1 sf.fontsize this.2⟩

/-- Witness for C10: in the 10-14 scenario the final lookups succeed. -/
theorem claim_C10_witness :
    (dictLookup c3sigma.fontsize c3sigma.cacheFont).isSome = true ∧
      (dictLookup c3sigma.fontsize c3sigma.cacheWrapped).isSome = true :=
  (claim_C10_cache_keys_invariant (fun z => z) (fun _ => ()) c3textsize
    0 0 5 16 20 c3sigma rfl).2

/-- With a metric for which no size ever fits, `successful_sizes`
stays empty, so the loop guard never fails. -/
theorem runFit_none_of_never_fits {Font Text : Type}
    (getFont : Int → Font) (wrapAt : Int → Text)
    (textsize : Text → Font → Int × Int) (boxwidth boxheight stp : Int)
    (hnever : ∀ z, ¬ FitsAt getFont wrapAt textsize boxwidth boxheight z) :
    ∀ (n : Nat) (s : FitState Font Text), s.successful = [] →
      runFit getFont wrapAt textsize boxwidth boxheight stp n s = none := by
  intro n
  induction n with
  | zero => intro s _; rfl
  | succ n ih =>
    intro s hS
    rw [runFit, if_neg (by rw [hS]; exact List.not_mem_nil _)]
    apply ih
    by_cases hu : s.fontsize ∈ s.unsuccessful
    · rw [fitStep_skip hu]; exact hS
    · rw [fitStep_fail hu (hnever s.fontsize)]; exact hS

/-- Claim C2 counterexample: with a wrapped extent of 1×0 at every
candidate size and a 0×0 box (no candidate font size makes the
wrapped text fit), the wrapping-mode search loop of `add_boxed_text`
never terminates, for any amount of fuel. -/
theorem claim_C2_counterexample :
    SearchDiverges (fun z : Int => z) (fun _ : Int => ())
      (fun _ _ => (1, 0)) 0 0 5 16 := by
  intro n
  exact runFit_none_of_never_fits _ _ _ _ _ _
    (fun z h => absurd h.1 (by decide)) n (initFitState 16) rfl

/-- The search step preserves the termination invariant and strictly
decreases the termination measure, given a fitting size `lo` below the
candidate range and a bound `M` above which no size fits. -/
theorem fitStep_measure_decrease {Font Text : Type} {getFont : Int → Font}
    {wrapAt : Int → Text} {textsize : Text → Font → Int × Int}
    {boxwidth boxheight stp lo hi M : Int} (hstp : 0 ≤ stp)
    (hlo : FitsAt getFont wrapAt textsize boxwidth boxheight lo)
    (hM : ∀ z, M < z → ¬ FitsAt getFont wrapAt textsize boxwidth boxheight z)
    (hMhi : M + stp ≤ hi)
    (s : FitState Font Text) (hm : s.fontsize ∉ s.successful)
    (hInv : FitInv getFont wrapAt textsize boxwidth boxheight lo hi s) :
    FitInv getFont wrapAt textsize boxwidth boxheight lo hi
        (fitStep getFont wrapAt textsize boxwidth boxheight stp s) ∧
      fitMeasure lo hi stp
          (fitStep getFont wrapAt textsize boxwidth boxheight stp s) <
        fitMeasure lo hi stp s := by
  obtain ⟨h1, h2, hU, hS⟩ := hInv
  by_cases hu : s.fontsize ∈ s.unsuccessful
  · -- known-unsuccessful size: skip and decrement
    have hne : s.fontsize ≠ lo := fun e => hU s.fontsize hu (e ▸ hlo)
    rw [fitStep_skip hu]
    refine ⟨⟨by dsimp only; omega, by dsimp only; omega, hU, hS⟩, ?_⟩
    unfold fitMeasure
    dsimp only
    exact Nat.add_lt_add_left (by omega) _
  · by_cases hc : FitsAt getFont wrapAt textsize boxwidth boxheight s.fontsize
    · -- fresh successful size: record it and jump up by the step
      have hle : s.fontsize ≤ M := by
        by_contra hgt
        exact hM s.fontsize (by omega) hc
      rw [fitStep_success hu hc]
      constructor
      · refine ⟨by dsimp only; omega, by dsimp only; omega, hU, ?_⟩
        dsimp only
        intro x hx
        rcases List.mem_append.mp hx with h | h
        · exact hS x h
        · simp at h; subst h; exact hc
      · unfold fitMeasure
        dsimp only
        have hlt : ((Finset.Icc lo hi).filter
            (fun z => z ∉ s.successful ++ [s.fontsize] ∧
              z ∉ s.unsuccessful)).card <
            ((Finset.Icc lo hi).filter
              (fun z => z ∉ s.successful ∧ z ∉ s.unsuccessful)).card := by
        { have hsub : (Finset.Icc lo hi).filter
              (fun z => z ∉ s.successful ++ [s.fontsize] ∧
                z ∉ s.unsuccessful) ⊆
              (Finset.Icc lo hi).filter
                (fun z => z ∉ s.successful ∧ z ∉ s.unsuccessful) := by
            intro z hz
            rw [Finset.mem_filter] at hz ⊢
            exact ⟨hz.1, fun hmem => hz.2.1 (List.mem_append_left _ hmem),
              hz.2.2⟩
          apply Finset.card_lt_card
          refine (Finset.ssubset_iff_of_subset hsub).mpr
            ⟨s.fontsize, Finset.mem_filter.mpr
              ⟨Finset.mem_Icc.mpr ⟨h1, h2⟩, hm, hu⟩, ?_⟩
          intro hmem
          exact (Finset.mem_filter.mp hmem).2.1
            (List.mem_append_right _ (List.mem_singleton.mpr rfl)) }
        generalize hA : ((Finset.Icc lo hi).filter
            (fun z => z ∉ s.successful ++ [s.fontsize] ∧
              z ∉ s.unsuccessful)).card = A at hlt ⊢
        generalize hB : ((Finset.Icc lo hi).filter
            (fun z => z ∉ s.successful ∧ z ∉ s.unsuccessful)).card = B at hlt ⊢
        have hmul : A * ((hi - lo).toNat + stp.toNat + 2) +
            ((hi - lo).toNat + stp.toNat + 2) ≤
            B * ((hi - lo).toNat + stp.toNat + 2) := by
          have h3 := Nat.mul_le_mul_right
            ((hi - lo).toNat + stp.toNat + 2) (Nat.succ_le_of_lt hlt)
          rwa [Nat.succ_mul] at h3
        have ht' : (s.fontsize + stp - lo).toNat =
            (s.fontsize - lo).toNat + stp.toNat := by omega
        rw [ht']
        calc A * ((hi - lo).toNat + stp.toNat + 2) +
              ((s.fontsize - lo).toNat + stp.toNat)
            < A * ((hi - lo).toNat + stp.toNat + 2) +
              (((hi - lo).toNat + stp.toNat + 2) +
                (s.fontsize - lo).toNat) :=
              Nat.add_lt_add_left (by omega) _
          _ = A * ((hi - lo).toNat + stp.toNat + 2) +
              ((hi - lo).toNat + stp.toNat + 2) +
              (s.fontsize - lo).toNat := by omega
          _ ≤ B * ((hi - lo).toNat + stp.toNat + 2) +
              (s.fontsize - lo).toNat := Nat.add_le_add_right hmul _
    · -- fresh unsuccessful size: record it and decrement
      have hne : s.fontsize ≠ lo := fun e => hc (e ▸ hlo)
      rw [fitStep_fail hu hc]
      constructor
      · refine ⟨by dsimp only; omega, by dsimp only; omega, ?_, hS⟩
        dsimp only
        intro u hu2
        rcases List.mem_append.mp hu2 with h | h
        · exact hU u h
        · simp at h; subst h; exact hc
      · unfold fitMeasure
        dsimp only
        have hlt : ((Finset.Icc lo hi).filter
            (fun z => z ∉ s.successful ∧
              z ∉ s.unsuccessful ++ [s.fontsize])).card <
            ((Finset.Icc lo hi).filter
              (fun z => z ∉ s.successful ∧ z ∉ s.unsuccessful)).card := by
        { have hsub : (Finset.Icc lo hi).filter
              (fun z => z ∉ s.successful ∧
                z ∉ s.unsuccessful ++ [s.fontsize]) ⊆
              (Finset.Icc lo hi).filter
                (fun z => z ∉ s.successful ∧ z ∉ s.unsuccessful) := by
            intro z hz
            rw [Finset.mem_filter] at hz ⊢
            exact ⟨hz.1, hz.2.1,
              fun hmem => hz.2.2 (List.mem_append_left _ hmem)⟩
          apply Finset.card_lt_card
          refine (Finset.ssubset_iff_of_subset hsub).mpr
            ⟨s.fontsize, Finset.mem_filter.mpr
              ⟨Finset.mem_Icc.mpr ⟨h1, h2⟩, hm, hu⟩, ?_⟩
          intro hmem
          exact (Finset.mem_filter.mp hmem).2.2
            (List.mem_append_right _ (List.mem_singleton.mpr rfl)) }
        generalize hA : ((Finset.Icc lo hi).filter
            (fun z => z ∉ s.successful ∧
              z ∉ s.unsuccessful ++ [s.fontsize])).card = A at hlt ⊢
        generalize hB : ((Finset.Icc lo hi).filter
            (fun z => z ∉ s.successful ∧ z ∉ s.unsuccessful)).card = B at hlt ⊢
        have hmul : A * ((hi - lo).toNat + stp.toNat + 2) +
            ((hi - lo).toNat + stp.toNat + 2) ≤
            B * ((hi - lo).toNat + stp.toNat + 2) := by
          have h3 := Nat.mul_le_mul_right
            ((hi - lo).toNat + stp.toNat + 2) (Nat.succ_le_of_lt hlt)
          rwa [Nat.succ_mul] at h3
        calc A * ((hi - lo).toNat + stp.toNat + 2) +
              (s.fontsize - 1 - lo).toNat
            < A * ((hi - lo).toNat + stp.toNat + 2) +
              (((hi - lo).toNat + stp.toNat + 2) +
                (s.fontsize - lo).toNat) :=
              Nat.add_lt_add_left (by omega) _
          _ = A * ((hi - lo).toNat + stp.toNat + 2) +
              ((hi - lo).toNat + stp.toNat + 2) +
              (s.fontsize - lo).toNat := by omega
          _ ≤ B * ((hi - lo).toNat + stp.toNat + 2) +
              (s.fontsize - lo).toNat := Nat.add_le_add_right hmul _

/-- From any state satisfying the invariant, the search exits within
`fitMeasure + 1` iterations. -/
theorem runFit_terminates_of_measure {Font Text : Type}
    (getFont : Int → Font) (wrapAt : Int → Text)
    (textsize : Text → Font → Int × Int)
    (boxwidth boxheight stp lo hi M : Int) (hstp : 0 ≤ stp)
    (hlo : FitsAt getFont wrapAt textsize boxwidth boxheight lo)
    (hM : ∀ z, M < z → ¬ FitsAt getFont wrapAt textsize boxwidth boxheight z)
    (hMhi : M + stp ≤ hi) :
    ∀ (k : Nat) (s : FitState Font Text),
      FitInv getFont wrapAt textsize boxwidth boxheight lo hi s →
      fitMeasure lo hi stp s ≤ k →
      (runFit getFont wrapAt textsize boxwidth boxheight stp (k + 1)
        s).isSome = true := by
  intro k
  induction k with
  | zero =>
    intro s hInv hmu
    rw [runFit]
    by_cases hm : s.fontsize ∈ s.successful
    · rw [if_pos hm]; rfl
    · exfalso
      have h := fitStep_measure_decrease hstp hlo hM hMhi s hm hInv
      omega
  | succ k ih =>
    intro s hInv hmu
    rw [runFit]
    by_cases hm : s.fontsize ∈ s.successful
    · rw [if_pos hm]; rfl
    · rw [if_neg hm]
      have h := fitStep_measure_decrease hstp hlo hM hMhi s hm hInv
      exact ih _ h.1 (by omega)

/-- Claim C2, amended: the wrapping-mode font-size search terminates
(within the explicit fuel bound `fitFuel`) provided some size
`lo ≤ base_fontsize` fits the box and no size above some bound `M`
fits; when no candidate size fits, the loop runs forever (see the
counterexample). -/
theorem claim_C2_amended_search_terminates {Font Text : Type}
    (getFont : Int → Font) (wrapAt : Int → Text)
    (textsize : Text → Font → Int × Int)
    (boxwidth boxheight stp base lo M : Int)
    (hstp : 0 ≤ stp) (hlo_le : lo ≤ base)
    (hlo : FitsAt getFont wrapAt textsize boxwidth boxheight lo)
    (hM : ∀ z, M < z →
      ¬ FitsAt getFont wrapAt textsize boxwidth boxheight z) :
    (runFit getFont wrapAt textsize boxwidth boxheight stp
      (fitFuel lo (max base (M + stp)) stp)
      (initFitState base)).isSome = true := by
  have hbase_hi : base ≤ max base (M + stp) := le_max_left _ _
  have hMhi : M + stp ≤ max base (M + stp) := le_max_right _ _
  have hInv : FitInv getFont wrapAt textsize boxwidth boxheight lo
      (max base (M + stp)) (initFitState base) := by
    refine ⟨hlo_le, hbase_hi, ?_, ?_⟩ <;>
      intro x hx <;> simp [initFitState] at hx
  have hmu : fitMeasure lo (max base (M + stp)) stp
      (initFitState base : FitState Font Text) ≤
      ((max base (M + stp) - lo).toNat + 1) *
        ((max base (M + stp) - lo).toNat + stp.toNat + 2) +
        (max base (M + stp) - lo).toNat := by
    unfold fitMeasure
    apply Nat.add_le_add
    · apply Nat.mul_le_mul_right
      calc ((Finset.Icc lo (max base (M + stp))).filter _).card ≤
          (Finset.Icc lo (max base (M + stp))).card :=
            Finset.card_filter_le _ _
        _ ≤ (max base (M + stp) - lo).toNat + 1 := by
            rw [Int.card_Icc]; omega
    · dsimp only [initFitState]
      omega
  have hrun := runFit_terminates_of_measure getFont wrapAt textsize
    boxwidth boxheight stp lo (max base (M + stp)) M hstp hlo hM hMhi
    (((max base (M + stp) - lo).toNat + 1) *
      ((max base (M + stp) - lo).toNat + stp.toNat + 2) +
      (max base (M + stp) - lo).toNat)
    (initFitState base) hInv hmu
  exact hrun

/-- Witness for the amended C2: metric `(f, f)` in a 20×20 box, base
size 16, step 5 — size 16 fits and nothing above 20 fits, so the
search terminates within the computed fuel. -/
theorem claim_C2_witness :
    (runFit (fun z : Int => z) (fun _ : Int => ()) c2textsize 20 20 5
      (fitFuel 16 (max 16 (20 + 5)) 5) (initFitState 16)).isSome = true :=
  claim_C2_amended_search_terminates (fun z => z) (fun _ => ()) c2textsize
    20 20 5 16 16 20 (by decide) (by decide)
    ⟨by decide, by decide⟩
    (fun z hz h => absurd h.1 (by simp [c2textsize]; omega))

theorem allNW_nil : AllNW [] := fun c hc => absurd hc (List.not_mem_nil c)

theorem allNW_cons {c : Char} {t : List Char} (hc : isSpace c = false)
    (ht : AllNW t) : AllNW (c :: t) := by
  intro d hd
  rcases List.mem_cons.mp hd with rfl | hd
  · exact hc
  · exact ht d hd

theorem allWS_nil : AllWS [] := fun c hc => absurd hc (List.not_mem_nil c)

theorem allWS_cons {c : Char} {t : List Char} (hc : isSpace c = true)
    (ht : AllWS t) : AllWS (c :: t) := by
  intro d hd
  rcases List.mem_cons.mp hd with rfl | hd
  · exact hc
  · exact ht d hd

theorem allWS_append {a b : List Char} (ha : AllWS a) (hb : AllWS b) :
    AllWS (a ++ b) := by
  intro d hd
  rcases List.mem_append.mp hd with h | h
  · exact ha d h
  · exact hb d h

theorem widthSum_append (cw : Char → Nat) (a b : List Char) :
    widthSum cw (a ++ b) = widthSum cw a + widthSum cw b := by
  simp [widthSum]

/-- Unfolding equation for `tokensOf` at two or more characters. -/
theorem tokensOf_cons_cons (c c2 : Char) (cs : List Char) :
    tokensOf (c :: c2 :: cs) =
      if isSpace c then tokensOf (c2 :: cs)
      else if isSpace c2 then [c] :: tokensOf (c2 :: cs)
      else match tokensOf (c2 :: cs) with
        | t :: ts => (c :: t) :: ts
        | [] => [[c]] := rfl

theorem tokensOf_cons_ws {c : Char} (h : isSpace c = true) (cs : List Char) :
    tokensOf (c :: cs) = tokensOf cs := by
  cases cs with
  | nil => simp [tokensOf, h]
  | cons c2 cs2 => rw [tokensOf_cons_cons, if_pos h]

theorem tokensOf_cons_nws_ne_nil {c : Char} (h : isSpace c = false)
    (cs : List Char) : tokensOf (c :: cs) ≠ [] := by
  cases cs with
  | nil => simp [tokensOf, h]
  | cons c2 cs2 =>
    rw [tokensOf_cons_cons, if_neg (by simp [h])]
    by_cases h2 : isSpace c2
    · rw [if_pos h2]; simp
    · rw [if_neg h2]
      cases htk : tokensOf (c2 :: cs2) <;> simp

theorem tokensOf_allws {z : List Char} (hz : AllWS z) : tokensOf z = [] := by
  induction z with
  | nil => rfl
  | cons c cs ih =>
    rw [tokensOf_cons_ws (hz c (List.mem_cons_self c cs))]
    exact ih (fun d hd => hz d (List.mem_cons_of_mem c hd))

theorem tokensOf_nws_ws {c c2 : Char} (hc : isSpace c = false)
    (h2 : isSpace c2 = true) (cs : List Char) :
    tokensOf (c :: c2 :: cs) = [c] :: tokensOf (c2 :: cs) := by
  rw [tokensOf_cons_cons, if_neg (by simp [hc]), if_pos h2]

theorem tokensOf_nws_nws {c c2 : Char} (hc : isSpace c = false)
    (h2 : isSpace c2 = false) (cs : List Char) :
    tokensOf (c :: c2 :: cs) =
      match tokensOf (c2 :: cs) with
      | t :: ts => (c :: t) :: ts
      | [] => [[c]] := by
  rw [tokensOf_cons_cons, if_neg (by simp [hc]), if_neg (by simp [h2])]

/-- `tokensOf` splits across a boundary that ends in whitespace. -/
theorem tokensOf_append_endsWS {a : List Char} (b : List Char)
    (h : endsWS a = true) :
    tokensOf (a ++ b) = tokensOf a ++ tokensOf b := by
  induction a with
  | nil => rfl
  | cons c a2 ih =>
    cases a2 with
    | nil =>
      have hc : isSpace c = true := h
      rw [List.cons_append, List.nil_append,
        tokensOf_cons_ws hc, tokensOf_cons_ws hc]
      rfl
    | cons c2 a3 =>
      have h2 : endsWS (c2 :: a3) = true := h
      show tokensOf (c :: c2 :: (a3 ++ b)) = tokensOf (c :: c2 :: a3)
        ++ tokensOf b
      cases hc : isSpace c with
      | true =>
        rw [tokensOf_cons_ws hc, tokensOf_cons_ws hc]
        exact ih h2
      | false =>
        cases h3 : isSpace c2 with
        | true =>
          rw [tokensOf_nws_ws hc h3 (a3 ++ b), tokensOf_nws_ws hc h3 a3,
            List.cons_append]
          congr 1
          exact ih h2
        | false =>
          have ih' := ih h2
          rw [List.cons_append] at ih'
          rw [tokensOf_nws_nws hc h3 (a3 ++ b), tokensOf_nws_nws hc h3 a3,
            ih']
          cases htk : tokensOf (c2 :: a3) with
          | nil => exact absurd htk (tokensOf_cons_nws_ne_nil h3 a3)
          | cons t ts => rfl

theorem tokensOf_append_allws {z : List Char} (hz : AllWS z)
    (s : List Char) : tokensOf (s ++ z) = tokensOf s := by
  induction s with
  | nil => exact tokensOf_allws hz
  | cons c s2 ih =>
    cases s2 with
    | nil =>
      show tokensOf (c :: z) = tokensOf [c]
      cases hc : isSpace c with
      | true =>
        rw [tokensOf_cons_ws hc, tokensOf_allws hz]
        simp [tokensOf, hc]
      | false =>
        cases z with
        | nil => rfl
        | cons z1 zs =>
          have hz1 : isSpace z1 = true := hz z1 (List.mem_cons_self _ _)
          rw [tokensOf_nws_ws hc hz1 zs, tokensOf_cons_ws hz1,
            tokensOf_allws (fun d hd => hz d (List.mem_cons_of_mem _ hd))]
          simp [tokensOf, hc]
    | cons c2 s3 =>
      have ih' : tokensOf (c2 :: (s3 ++ z)) = tokensOf (c2 :: s3) := by
        rwa [List.cons_append] at ih
      show tokensOf (c :: c2 :: (s3 ++ z)) = tokensOf (c :: c2 :: s3)
      cases hc : isSpace c with
      | true => rw [tokensOf_cons_ws hc, tokensOf_cons_ws hc]; exact ih'
      | false =>
        cases h3 : isSpace c2 with
        | true =>
          rw [tokensOf_nws_ws hc h3 (s3 ++ z), tokensOf_nws_ws hc h3 s3, ih']
        | false =>
          rw [tokensOf_nws_nws hc h3 (s3 ++ z), tokensOf_nws_nws hc h3 s3,
            ih']

theorem dropWhile_append_of_all {p : Char → Bool} {u : List Char}
    (hu : ∀ c ∈ u, p c = true) (v : List Char) :
    (u ++ v).dropWhile p = v.dropWhile p := by
  induction u with
  | nil => rfl
  | cons c u2 ih =>
    rw [List.cons_append, List.dropWhile_cons,
      if_pos (hu c (List.mem_cons_self _ _))]
    exact ih (fun d hd => hu d (List.mem_cons_of_mem _ hd))

theorem dropWhile_eq_self_of_all {p : Char → Bool} {u : List Char}
    (hu : ∀ c ∈ u, p c = false) : u.dropWhile p = u := by
  cases u with
  | nil => rfl
  | cons c u2 =>
    rw [List.dropWhile_cons,
      if_neg (by simp [hu c (List.mem_cons_self _ _)])]

theorem stripTrailing_decomp (s : List Char) :
    ∃ z, AllWS z ∧ s = stripTrailing s ++ z := by
  refine ⟨(s.reverse.takeWhile isSpace).reverse, ?_, ?_⟩
  · intro c hc
    rw [List.mem_reverse] at hc
    exact List.mem_takeWhile_imp hc
  · show s = (s.reverse.dropWhile isSpace).reverse ++
      (s.reverse.takeWhile isSpace).reverse
    rw [← List.reverse_append, List.takeWhile_append_dropWhile,
      List.reverse_reverse]

theorem stripLeading_decomp (s : List Char) :
    ∃ z, AllWS z ∧ s = z ++ stripLeading s := by
  refine ⟨s.takeWhile isSpace, ?_, ?_⟩
  · intro c hc
    exact List.mem_takeWhile_imp hc
  · exact (List.takeWhile_append_dropWhile isSpace s).symm

theorem stripTrailing_append_allws {z : List Char} (hz : AllWS z)
    (y : List Char) : stripTrailing (y ++ z) = stripTrailing y := by
  show ((y ++ z).reverse.dropWhile isSpace).reverse = _
  rw [List.reverse_append,
    dropWhile_append_of_all (fun c hc => hz c (List.mem_reverse.mp hc))]
  rfl

theorem stripTrailing_of_allnw {t : List Char} (ht : AllNW t) :
    stripTrailing t = t := by
  show (t.reverse.dropWhile isSpace).reverse = t
  rw [dropWhile_eq_self_of_all (fun c hc => ht c (List.mem_reverse.mp hc)),
    List.reverse_reverse]

theorem stripLeading_of_allnw {t : List Char} (ht : AllNW t) :
    stripLeading t = t := dropWhile_eq_self_of_all ht

/-- Stripping a non-whitespace token with its trailing whitespace run
returns exactly the token. -/
theorem strip_token_ws {t w : List Char} (ht : AllNW t) (hw : AllWS w) :
    strip (t ++ w) = t := by
  unfold strip
  rw [stripTrailing_append_allws hw, stripTrailing_of_allnw ht,
    stripLeading_of_allnw ht]

theorem tokensOf_stripLeading (s : List Char) :
    tokensOf (stripLeading s) = tokensOf s := by
  induction s with
  | nil => rfl
  | cons c cs ih =>
    show tokensOf ((c :: cs).dropWhile isSpace) = _
    rw [List.dropWhile_cons]
    cases hc : isSpace c with
    | true =>
      rw [if_pos rfl, tokensOf_cons_ws hc]
      exact ih
    | false => rw [if_neg (by simp)]

theorem tokensOf_stripTrailing (s : List Char) :
    tokensOf (stripTrailing s) = tokensOf s := by
  obtain ⟨z, hz, hdec⟩ := stripTrailing_decomp s
  conv_rhs => rw [hdec]
  rw [tokensOf_append_allws hz]

theorem tokensOf_strip (s : List Char) :
    tokensOf (strip s) = tokensOf s := by
  unfold strip
  rw [tokensOf_stripLeading, tokensOf_stripTrailing]

/-- The stripped string occurs verbatim inside the original. -/
theorem strip_contig (s : List Char) : ContigSub (strip s) s := by
  obtain ⟨z1, hz1, hd1⟩ := stripTrailing_decomp s
  obtain ⟨z2, hz2, hd2⟩ := stripLeading_decomp (stripTrailing s)
  refine ⟨z2, z1, ?_⟩
  calc s = stripTrailing s ++ z1 := hd1
    _ = (z2 ++ stripLeading (stripTrailing s)) ++ z1 := by rw [← hd2]
    _ = z2 ++ strip s ++ z1 := rfl

theorem contigSub_trans {a b c : List Char} (h1 : ContigSub a b)
    (h2 : ContigSub b c) : ContigSub a c := by
  obtain ⟨u1, v1, rfl⟩ := h1
  obtain ⟨u2, v2, rfl⟩ := h2
  exact ⟨u2 ++ u1, v1 ++ v2, by simp⟩

/-- Width of the stripped segment is at most the width of the segment
without its trailing whitespace run. -/
theorem widthSum_strip_append_ws_le (cw : Char → Nat) {z : List Char}
    (hz : AllWS z) (y : List Char) :
    widthSum cw (strip (y ++ z)) ≤ widthSum cw y := by
  unfold strip
  rw [stripTrailing_append_allws hz]
  obtain ⟨z2, _, hd2⟩ := stripLeading_decomp (stripTrailing y)
  obtain ⟨z1, _, hd1⟩ := stripTrailing_decomp y
  calc widthSum cw (stripLeading (stripTrailing y))
      ≤ widthSum cw (stripTrailing y) := by
        conv_rhs => rw [hd2]
        rw [widthSum_append]
        omega
    _ ≤ widthSum cw y := by
        conv_rhs => rw [hd1]
        rw [widthSum_append]
        omega

theorem endsWS_of_allws {w : List Char} (hw : w ≠ []) (hws : AllWS w) :
    endsWS w = true := by
  induction w with
  | nil => exact absurd rfl hw
  | cons c w2 ih =>
    cases w2 with
    | nil => exact hws c (List.mem_cons_self _ _)
    | cons c2 w3 =>
      show endsWS (c2 :: w3) = true
      exact ih (by simp) (fun d hd => hws d (List.mem_cons_of_mem _ hd))

theorem endsWS_append {w : List Char} (hw : w ≠ []) (hws : AllWS w)
    (x : List Char) : endsWS (x ++ w) = true := by
  induction x with
  | nil => exact endsWS_of_allws hw hws
  | cons c x2 ih =>
    cases hxw : x2 ++ w with
    | nil => exact absurd (List.append_eq_nil.mp hxw).2 hw
    | cons d l2 =>
      show endsWS (c :: (x2 ++ w)) = true
      rw [hxw]
      show endsWS (d :: l2) = true
      rw [← hxw]
      exact ih

theorem splitWS_ne_nil (s : List Char) : splitWS s ≠ [] := by
  cases s with
  | nil => simp [splitWS]
  | cons c cs =>
    simp only [splitWS]
    split
    · split <;> simp
    · split <;> simp

/-- The alternating structure produced by `splitWS`. -/
theorem wfToks_splitWS (s : List Char) : WfToks (splitWS s) := by
  induction s with
  | nil =>
    show AllNW []
    exact allNW_nil
  | cons c cs ih =>
    cases hr : splitWS cs with
    | nil => exact absurd hr (splitWS_ne_nil cs)
    | cons t rest =>
      rw [hr] at ih
      cases hc : isSpace c with
      | true =>
        cases t with
        | nil =>
          cases rest with
          | nil =>
            have he : splitWS (c :: cs) = [] :: [c] :: [[]] := by
              simp [splitWS, hr, hc]
            rw [he]
            exact ⟨allNW_nil, allWS_cons hc allWS_nil, by simp, allNW_nil⟩
          | cons w rest2 =>
            obtain ⟨h1, h2, h3, h4⟩ := ih
            have he : splitWS (c :: cs) = [] :: (c :: w) :: rest2 := by
              simp [splitWS, hr, hc]
            rw [he]
            exact ⟨allNW_nil, allWS_cons hc h2, by simp, h4⟩
        | cons c2 t2 =>
          have he : splitWS (c :: cs) = [] :: [c] :: (c2 :: t2) :: rest := by
            simp [splitWS, hr, hc]
          rw [he]
          exact ⟨allNW_nil, allWS_cons hc allWS_nil, by simp, ih⟩
      | false =>
        have he : splitWS (c :: cs) = (c :: t) :: rest := by
          simp [splitWS, hr, hc]
        rw [he]
        cases rest with
        | nil => exact allNW_cons hc ih
        | cons w rest2 =>
          obtain ⟨h1, h2, h3, h4⟩ := ih
          exact ⟨allNW_cons hc h1, h2, h3, h4⟩

/-- `splitWS` is lossless: its tokens concatenate back to the input. -/
theorem joinToks_splitWS (s : List Char) : joinToks (splitWS s) = s := by
  induction s with
  | nil => rfl
  | cons c cs ih =>
    cases hr : splitWS cs with
    | nil => exact absurd hr (splitWS_ne_nil cs)
    | cons t rest =>
      rw [hr] at ih
      cases hc : isSpace c with
      | true =>
        cases t with
        | nil =>
          cases rest with
          | nil =>
            have he : splitWS (c :: cs) = [] :: [c] :: [[]] := by
              simp [splitWS, hr, hc]
            rw [he]
            simp only [joinToks] at ih ⊢
            simp at ih ⊢
            exact ih
          | cons w rest2 =>
            have he : splitWS (c :: cs) = [] :: (c :: w) :: rest2 := by
              simp [splitWS, hr, hc]
            rw [he]
            simp only [joinToks] at ih ⊢
            simp at ih ⊢
            exact ih
        | cons c2 t2 =>
          have he : splitWS (c :: cs) = [] :: [c] :: (c2 :: t2) :: rest := by
            simp [splitWS, hr, hc]
          rw [he]
          simp only [joinToks] at ih ⊢
          simp at ih ⊢
          exact ih
      | false =>
        have he : splitWS (c :: cs) = (c :: t) :: rest := by
          simp [splitWS, hr, hc]
        rw [he]
        simp only [joinToks] at ih ⊢
        simp at ih ⊢
        exact ih

theorem wfPairs_toPairs : ∀ {l : List (List Char)}, WfToks l →
    WfPairs (toPairs l)
  | [], h => absurd h (by simp [WfToks])
  | [t], h => ⟨h, allWS_nil⟩
  | t :: w :: rest, h => by
    obtain ⟨h1, h2, h3, h4⟩ := h
    cases rest with
    | nil => exact ⟨h1, h2⟩
    | cons t2 rest2 =>
      have hrec := wfPairs_toPairs h4
      cases hne : toPairs (t2 :: rest2) with
      | nil => cases rest2 <;> simp [toPairs] at hne
      | cons q qs =>
        rw [show toPairs (t :: w :: t2 :: rest2) =
          (t, w) :: toPairs (t2 :: rest2) from rfl, hne]
        rw [hne] at hrec
        exact ⟨h1, h2, h3, hrec⟩

theorem joinPairs_toPairs : ∀ l : List (List Char),
    joinPairs (toPairs l) = joinToks l
  | [] => rfl
  | [t] => by simp [toPairs, joinPairs, joinToks]
  | t :: w :: rest => by
    show t ++ w ++ joinPairs (toPairs rest) = t ++ (w ++ joinToks rest)
    rw [joinPairs_toPairs rest, List.append_assoc]

theorem wfPairs_head_props : ∀ {p : List Char × List Char}
    {ps : List (List Char × List Char)}, WfPairs (p :: ps) →
    AllNW p.1 ∧ AllWS p.2
  | _, [], h => h
  | _, _ :: _, h => ⟨h.1, h.2.1⟩

theorem wfPairs_tail : ∀ {p : List Char × List Char}
    {ps : List (List Char × List Char)}, WfPairs (p :: ps) → WfPairs ps
  | _, [], _ => trivial
  | _, _ :: _, h => h.2.2.2

theorem wfPairs_sep_ne_nil {p q : List Char × List Char}
    {qs : List (List Char × List Char)} (h : WfPairs (p :: q :: qs)) :
    p.2 ≠ [] := h.2.2.1

theorem splitlines_nil_eq : splitlines [] = [] := by simp [splitlines]

theorem splitlines_nl (cs : List Char) :
    splitlines ('\n' :: cs) = [] :: splitlines cs := by
  cases cs <;> simp [splitlines]

theorem splitlines_crnl (cs : List Char) :
    splitlines ('\r' :: '\n' :: cs) = [] :: splitlines cs := by
  simp [splitlines]

theorem splitlines_cr_other {c2 : Char} (h : c2 ≠ '\n') (cs2 : List Char) :
    splitlines ('\r' :: c2 :: cs2) = [] :: splitlines (c2 :: cs2) := by
  simp [splitlines, h]

theorem splitlines_cr_nil : splitlines ['\r'] = [[]] := by simp [splitlines]

theorem splitlines_other {c : Char} (h1 : c ≠ '\n') (h2 : c ≠ '\r')
    (cs : List Char) :
    splitlines (c :: cs) =
      match splitlines cs with
      | [] => [[c]]
      | l :: rest => (c :: l) :: rest := by
  cases cs with
  | nil => simp [splitlines, h1, h2]
  | cons c2 cs2 => simp [splitlines, h1, h2]

theorem splitlines_cons_eq (c : Char) (cs : List Char) :
    splitlines (c :: cs) =
      if c = '\n' then [] :: splitlines cs
      else if c = '\r' then
        (match cs with
         | c2 :: cs2 =>
           if c2 = '\n' then [] :: splitlines cs2
           else [] :: splitlines (c2 :: cs2)
         | [] => [[]])
      else
        (match splitlines cs with
         | [] => [[c]]
         | l :: rest => (c :: l) :: rest) := by
  cases cs with
  | nil => simp [splitlines]
  | cons c2 cs2 => simp [splitlines]

theorem splitlines_ne_nil : ∀ {s : List Char}, s ≠ [] → splitlines s ≠ [] := by
  intro s hs
  cases s with
  | nil => exact absurd rfl hs
  | cons c cs =>
    rw [splitlines_cons_eq]
    repeat' split
    all_goals simp

theorem splitlines_eq_nil {s : List Char} (h : splitlines s = []) :
    s = [] := by
  by_contra hs
  exact splitlines_ne_nil hs h

/-- The first line produced by `splitlines` is a prefix of the input. -/
theorem splitlines_head_prefix : ∀ {s l1 : List Char}
    {rest : List (List Char)},
    splitlines s = l1 :: rest → ∃ v, s = l1 ++ v := by
  intro s
  induction s using splitlines.induct with
  | case1 =>
    intro l1 rest h
    simp [splitlines] at h
  | case2 cs ih =>
    intro l1 rest h
    rw [splitlines_nl cs] at h
    exact ⟨'\n' :: cs, by rw [← (List.cons.inj h).1]; rfl⟩
  | case3 cs2 hne ih =>
    intro l1 rest h
    rw [splitlines_crnl cs2] at h
    exact ⟨'\r' :: '\n' :: cs2, by rw [← (List.cons.inj h).1]; rfl⟩
  | case4 c2 cs2 h1 h2 ih =>
    intro l1 rest h
    rw [splitlines_cr_other h1 cs2] at h
    exact ⟨'\r' :: c2 :: cs2, by rw [← (List.cons.inj h).1]; rfl⟩
  | case5 hne =>
    intro l1 rest h
    rw [splitlines_cr_nil] at h
    exact ⟨['\r'], by rw [← (List.cons.inj h).1]; rfl⟩
  | case6 c cs h1 h2 hsp ih =>
    intro l1 rest h
    rw [splitlines_other h1 h2 cs, hsp] at h
    have hc : [c] = l1 := (List.cons.inj h).1
    exact ⟨[], by rw [← hc]; simp [splitlines_eq_nil hsp]⟩
  | case7 c cs h1 h2 l rest0 hsp ih =>
    intro l1 rest h
    rw [splitlines_other h1 h2 cs, hsp] at h
    obtain ⟨v, hv⟩ := ih hsp
    have hc : c :: l = l1 := (List.cons.inj h).1
    exact ⟨v, by rw [← hc, List.cons_append, ← hv]⟩

/-- If the first line is empty, the input starts with a line-break
character (which is whitespace). -/
theorem splitlines_head_empty {s : List Char} {rest : List (List Char)}
    (h : splitlines s = [] :: rest) :
    ∃ d s', s = d :: s' ∧ isSpace d = true := by
  cases s with
  | nil => simp [splitlines] at h
  | cons c cs =>
    by_cases h1 : c = '\n'
    · exact ⟨c, cs, rfl, by rw [h1]; rfl⟩
    by_cases h2 : c = '\r'
    · exact ⟨c, cs, rfl, by rw [h2]; rfl⟩
    rw [splitlines_other h1 h2 cs] at h
    cases hsp : splitlines cs with
    | nil => rw [hsp] at h; simp at h
    | cons l r => rw [hsp] at h; simp at h

/-- The words of the input are exactly the words of its lines, in
order: line-break characters are whitespace, so no word crosses a line
boundary. -/
theorem tokensOf_flatten_splitlines (s : List Char) :
    ((splitlines s).map tokensOf).flatten = tokensOf s := by
  induction s using splitlines.induct with
  | case1 => rfl
  | case2 cs ih =>
    rw [splitlines_nl cs,
      tokensOf_cons_ws (show isSpace '\n' = true from rfl) cs]
    simpa using ih
  | case3 cs2 hne ih =>
    rw [splitlines_crnl cs2,
      tokensOf_cons_ws (show isSpace '\r' = true from rfl),
      tokensOf_cons_ws (show isSpace '\n' = true from rfl)]
    simpa using ih
  | case4 c2 cs2 h1 h2 ih =>
    rw [splitlines_cr_other h1 cs2,
      tokensOf_cons_ws (show isSpace '\r' = true from rfl)]
    simpa using ih
  | case5 hne =>
    rw [splitlines_cr_nil]
    rfl
  | case6 c cs h1 h2 hsp ih =>
    have hcs : cs = [] := splitlines_eq_nil hsp
    subst hcs
    rw [splitlines_other h1 h2 []]
    simp [splitlines]
  | case7 c cs h1 h2 l rest hsp ih =>
    rw [splitlines_other h1 h2 cs, hsp]
    rw [hsp] at ih
    simp only [List.map_cons, List.flatten_cons] at ih ⊢
    cases hc : isSpace c with
    | true =>
      rw [tokensOf_cons_ws hc l, tokensOf_cons_ws hc cs]
      exact ih
    | false =>
      obtain ⟨v, hv⟩ := splitlines_head_prefix hsp
      cases l with
      | nil =>
        obtain ⟨d, s', hds, hd⟩ := splitlines_head_empty hsp
        have h1c : tokensOf [c] = [[c]] := by simp [tokensOf, hc]
        rw [h1c]
        simp only [tokensOf] at ih
        rw [List.nil_append] at ih
        rw [hds, tokensOf_nws_ws hc hd s', ← hds, ih]
        rfl
      | cons d l' =>
        have hv' : cs = d :: (l' ++ v) := by
          rw [hv]; rfl
        cases hd : isSpace d with
        | true =>
          rw [tokensOf_nws_ws hc hd l', hv', tokensOf_nws_ws hc hd (l' ++ v),
            ← hv']
          rw [List.cons_append, ih]
        | false =>
          cases htl : tokensOf (d :: l') with
          | nil => exact absurd htl (tokensOf_cons_nws_ne_nil hd l')
          | cons t0 ts0 =>
            rw [tokensOf_nws_nws hc hd l', htl]
            rw [htl] at ih
            rw [hv', tokensOf_nws_nws hc hd (l' ++ v), ← hv', ← ih]
            rfl

theorem wrapLineGo_nil (cw : Char → Nat) (width : Int) (cur : List Char)
    (total : Nat) (isFirst : Bool) (acc : List (List Char)) :
    wrapLineGo cw width [] cur total isFirst acc =
      if isFirst then acc.reverse else (cur :: acc).reverse := by
  simp only [wrapLineGo]

theorem wrapLineGo_cons (cw : Char → Nat) (width : Int) (t w : List Char)
    (rest : List (List Char × List Char)) (cur : List Char) (total : Nat)
    (isFirst : Bool) (acc : List (List Char)) :
    wrapLineGo cw width ((t, w) :: rest) cur total isFirst acc =
      if (total + widthSum cw t : Int) > width then
        if isFirst then
          wrapLineGo cw width rest [] 0 true ((t ++ w) :: acc)
        else
          wrapLineGo cw width rest (t ++ w) (widthSum cw t + widthSum cw w)
            false (cur :: acc)
      else
        wrapLineGo cw width rest (cur ++ t ++ w)
          (total + (widthSum cw t + widthSum cw w)) false acc := by
  simp only [wrapLineGo]

/-- Claim C4 main induction: every line the greedy loop emits is,
after stripping, within the budget or a single whitespace-free token. -/
theorem wrapLineGo_width_bound {cw : Char → Nat} {width : Int} :
    ∀ (ps : List (List Char × List Char)) (cur : List Char) (total : Nat)
      (isFirst : Bool) (acc : List (List Char)),
      WfPairs ps →
      total = widthSum cw cur →
      ((widthSum cw (strip cur) : Int) ≤ width ∨ AllNW (strip cur)) →
      (∀ l ∈ acc, (widthSum cw (strip l) : Int) ≤ width ∨ AllNW (strip l)) →
      ∀ l ∈ wrapLineGo cw width ps cur total isFirst acc,
        (widthSum cw (strip l) : Int) ≤ width ∨ AllNW (strip l) := by
  intro ps
  induction ps with
  | nil =>
    intro cur total isFirst acc _ _ hcur hacc l hl
    rw [wrapLineGo_nil] at hl
    by_cases hf : isFirst = true
    · rw [if_pos hf] at hl
      exact hacc l (List.mem_reverse.mp hl)
    · rw [if_neg hf] at hl
      rcases List.mem_cons.mp (List.mem_reverse.mp hl) with rfl | hl2
      · exact hcur
      · exact hacc l hl2
  | cons p rest ih =>
    obtain ⟨t, w⟩ := p
    intro cur total isFirst acc hwf htot hcur hacc l hl
    have hpt : AllNW t := (wfPairs_head_props hwf).1
    have hpw : AllWS w := (wfPairs_head_props hwf).2
    have hwf' := wfPairs_tail hwf
    rw [wrapLineGo_cons] at hl
    by_cases hover : (total + widthSum cw t : Int) > width
    · rw [if_pos hover] at hl
      by_cases hf : isFirst = true
      · rw [if_pos hf] at hl
        refine ih [] 0 true ((t ++ w) :: acc) hwf' rfl (Or.inr ?_) ?_ l hl
        · show AllNW (strip [])
          exact allNW_nil
        · intro l2 hl2
          rcases List.mem_cons.mp hl2 with rfl | hl2
          · rw [strip_token_ws hpt hpw]
            exact Or.inr hpt
          · exact hacc l2 hl2
      · rw [if_neg hf] at hl
        refine ih (t ++ w) (widthSum cw t + widthSum cw w) false (cur :: acc)
          hwf' (widthSum_append cw t w).symm (Or.inr ?_) ?_ l hl
        · rw [strip_token_ws hpt hpw]
          exact hpt
        · intro l2 hl2
          rcases List.mem_cons.mp hl2 with rfl | hl2
          · exact hcur
          · exact hacc l2 hl2
    · rw [if_neg hover] at hl
      refine ih (cur ++ t ++ w) (total + (widthSum cw t + widthSum cw w))
        false acc hwf' ?_ (Or.inl ?_) hacc l hl
      · rw [widthSum_append, widthSum_append, htot]
        omega
      · have hle := widthSum_strip_append_ws_le cw hpw (cur ++ t)
        rw [widthSum_append] at hle
        rw [htot] at hover
        omega

/-- Claim C4: for every text, positive width budget and per-character
width metric, every line returned by `word_wrap` has measured width at
most the budget, except a line consisting of a single
whitespace-delimited token whose own width exceeds the budget, which
is emitted alone. -/
theorem claim_C4_wrapped_line_width (cw : Char → Nat) (width : Int)
    (text : List Char) (hW : 0 < width) :
    ∀ l ∈ word_wrap cw width text,
      (widthSum cw l : Int) ≤ width ∨
        (AllNW l ∧ (width : Int) < widthSum cw l) := by
  intro l hl
  have hmain : (widthSum cw l : Int) ≤ width ∨ AllNW l := by
    have hww : word_wrap cw width text =
        (if (((splitlines text).map (wrapLine cw width)).flatten.map
              strip).isEmpty = true
          then [[]]
          else ((splitlines text).map (wrapLine cw width)).flatten.map
            strip) := rfl
    rw [hww] at hl
    split at hl
    · rcases List.mem_singleton.mp hl with rfl
      left
      simp [widthSum]
      omega
    · rcases List.mem_map.mp hl with ⟨l2, hl2, rfl⟩
      rcases List.mem_flatten.mp hl2 with ⟨lineLs, hlineLs, hl3⟩
      rcases List.mem_map.mp hlineLs with ⟨line, hline, rfl⟩
      exact wrapLineGo_width_bound (toPairs (splitWS line)) [] 0 true []
        (wfPairs_toPairs (wfToks_splitWS line)) rfl
        (Or.inr (show AllNW (strip []) from allNW_nil))
        (fun a ha => absurd ha (List.not_mem_nil a)) l2 hl3
  rcases hmain with h | h
  · exact Or.inl h
  · by_cases hle : (widthSum cw l : Int) ≤ width
    · exact Or.inl hle
    · exact Or.inr ⟨h, by omega⟩

/-- Witness for C4 with unit widths, budget 3 and text `"abcd ef"`:
the over-wide token line `"abcd"` satisfies the exception clause. -/
theorem claim_C4_witness :
    (widthSum cw1 ['a', 'b', 'c', 'd'] : Int) ≤ 3 ∨
      (AllNW ['a', 'b', 'c', 'd'] ∧
        (3 : Int) < widthSum cw1 ['a', 'b', 'c', 'd']) :=
  claim_C4_wrapped_line_width cw1 3 ['a', 'b', 'c', 'd', ' ', 'e', 'f']
    (by decide) ['a', 'b', 'c', 'd'] (by decide)

theorem wrapLineGo_eq_nil {cw : Char → Nat} {width : Int} :
    ∀ (ps : List (List Char × List Char)) (cur : List Char) (total : Nat)
      (isFirst : Bool) (acc : List (List Char)),
      wrapLineGo cw width ps cur total isFirst acc = [] →
      acc = [] ∧ ps = [] ∧ isFirst = true := by
  intro ps
  induction ps with
  | nil =>
    intro cur total isFirst acc h
    rw [wrapLineGo_nil] at h
    by_cases hf : isFirst = true
    · rw [if_pos hf] at h
      exact ⟨List.reverse_eq_nil_iff.mp h, rfl, hf⟩
    · rw [if_neg hf] at h
      simp at h
  | cons p rest ih =>
    obtain ⟨t, w⟩ := p
    intro cur total isFirst acc h
    rw [wrapLineGo_cons] at h
    by_cases hover : (total + widthSum cw t : Int) > width
    · rw [if_pos hover] at h
      by_cases hf : isFirst = true
      · rw [if_pos hf] at h
        obtain ⟨hacc, -, -⟩ := ih _ _ _ _ h
        simp at hacc
      · rw [if_neg hf] at h
        obtain ⟨hacc, -, -⟩ := ih _ _ _ _ h
        simp at hacc
    · rw [if_neg hover] at h
      obtain ⟨-, -, hf⟩ := ih _ _ _ _ h
      simp at hf

theorem wrapLine_ne_nil (cw : Char → Nat) (width : Int) (line : List Char) :
    wrapLine cw width line ≠ [] := by
  intro h
  obtain ⟨-, hps, -⟩ := wrapLineGo_eq_nil _ _ _ _ _ h
  cases hsw : splitWS line with
  | nil => exact splitWS_ne_nil line hsw
  | cons t rest =>
    rw [hsw] at hps
    cases rest with
    | nil => simp [toPairs] at hps
    | cons w r2 => simp [toPairs] at hps

/-- Claim C7 main induction: the words of the emitted lines are
exactly the words of the pending input, in order. -/
theorem wrapLineGo_tokens {cw : Char → Nat} {width : Int} :
    ∀ (ps : List (List Char × List Char)) (cur : List Char) (total : Nat)
      (isFirst : Bool) (acc : List (List Char)),
      WfPairs ps →
      (isFirst = true → cur = []) →
      (ps ≠ [] → cur = [] ∨ endsWS cur = true) →
      ((wrapLineGo cw width ps cur total isFirst acc).map tokensOf).flatten =
        ((acc.reverse.map tokensOf).flatten) ++
          tokensOf (cur ++ joinPairs ps) := by
  intro ps
  induction ps with
  | nil =>
    intro cur total isFirst acc _ hfirst _
    rw [wrapLineGo_nil]
    by_cases hf : isFirst = true
    · rw [if_pos hf, hfirst hf]
      simp [joinPairs, tokensOf]
    · rw [if_neg hf, List.reverse_cons, List.map_append, List.flatten_append]
      simp [joinPairs]
  | cons p rest ih =>
    obtain ⟨t, w⟩ := p
    intro cur total isFirst acc hwf hfirst hend
    have hpt : AllNW t := (wfPairs_head_props hwf).1
    have hpw : AllWS w := (wfPairs_head_props hwf).2
    have hwf' := wfPairs_tail hwf
    have hwne : rest ≠ [] → w ≠ [] := fun hrest => by
      cases rest with
      | nil => exact absurd rfl hrest
      | cons q qs => exact wfPairs_sep_ne_nil hwf
    have hjoin : joinPairs ((t, w) :: rest) = t ++ w ++ joinPairs rest := rfl
    rw [wrapLineGo_cons]
    by_cases hover : (total + widthSum cw t : Int) > width
    · rw [if_pos hover]
      by_cases hf : isFirst = true
      · rw [if_pos hf]
        have hcur : cur = [] := hfirst hf
        subst hcur
        rw [ih [] 0 true ((t ++ w) :: acc) hwf' (fun _ => rfl)
          (fun _ => Or.inl rfl)]
        rw [List.reverse_cons, List.map_append, List.flatten_append, hjoin]
        simp only [List.nil_append, List.map_cons, List.map_nil,
          List.flatten_cons, List.flatten_nil, List.append_nil,
          List.append_assoc]
        congr 1
        cases rest with
        | nil => simp [joinPairs, tokensOf]
        | cons q qs =>
          rw [show t ++ (w ++ joinPairs (q :: qs)) =
            (t ++ w) ++ joinPairs (q :: qs) from by simp [List.append_assoc],
            tokensOf_append_endsWS _ (endsWS_append (hwne (by simp)) hpw t)]
      · rw [if_neg hf]
        have hcurEnd : cur = [] ∨ endsWS cur = true := hend (by simp)
        rw [ih (t ++ w) (widthSum cw t + widthSum cw w) false (cur :: acc)
          hwf' (by simp)
          (fun hrest => Or.inr (endsWS_append (hwne hrest) hpw t))]
        rw [List.reverse_cons, List.map_append, List.flatten_append, hjoin]
        simp only [List.map_cons, List.map_nil, List.flatten_cons,
          List.flatten_nil, List.append_nil, List.append_assoc]
        congr 1
        rcases hcurEnd with rfl | hcurEnd
        · simp [tokensOf]
        · rw [← tokensOf_append_endsWS _ hcurEnd]
    · rw [if_neg hover]
      rw [ih (cur ++ t ++ w) (total + (widthSum cw t + widthSum cw w))
        false acc hwf' (by simp)
        (fun hrest => Or.inr (endsWS_append (hwne hrest) hpw (cur ++ t)))]
      rw [hjoin]
      congr 2
      simp [List.append_assoc]

theorem contigSub_cons {l s : List Char} (c : Char) (h : ContigSub l s) :
    ContigSub l (c :: s) := by
  obtain ⟨u, v, rfl⟩ := h
  exact ⟨c :: u, v, rfl⟩

/-- Every line of `splitlines` occurs verbatim in the input. -/
theorem splitlines_mem_contig : ∀ {s : List Char},
    ∀ l ∈ splitlines s, ContigSub l s := by
  intro s
  induction s using splitlines.induct with
  | case1 =>
    intro l hl
    simp [splitlines] at hl
  | case2 cs ih =>
    intro l hl
    rw [splitlines_nl cs] at hl
    rcases List.mem_cons.mp hl with rfl | hl
    · exact ⟨[], '\n' :: cs, rfl⟩
    · exact contigSub_cons '\n' (ih l hl)
  | case3 cs2 hne ih =>
    intro l hl
    rw [splitlines_crnl cs2] at hl
    rcases List.mem_cons.mp hl with rfl | hl
    · exact ⟨[], '\r' :: '\n' :: cs2, rfl⟩
    · exact contigSub_cons '\r' (contigSub_cons '\n' (ih l hl))
  | case4 c2 cs2 h1 h2 ih =>
    intro l hl
    rw [splitlines_cr_other h1 cs2] at hl
    rcases List.mem_cons.mp hl with rfl | hl
    · exact ⟨[], '\r' :: c2 :: cs2, rfl⟩
    · exact contigSub_cons '\r' (ih l hl)
  | case5 hne =>
    intro l hl
    rw [splitlines_cr_nil] at hl
    rcases List.mem_singleton.mp hl with rfl
    exact ⟨[], ['\r'], rfl⟩
  | case6 c cs h1 h2 hsp ih =>
    intro l hl
    rw [splitlines_other h1 h2 cs, hsp] at hl
    rcases List.mem_singleton.mp hl with rfl
    exact ⟨[], cs, rfl⟩
  | case7 c cs h1 h2 l1 rest hsp ih =>
    intro l hl
    rw [splitlines_other h1 h2 cs, hsp] at hl
    rcases List.mem_cons.mp hl with rfl | hl
    · obtain ⟨v, hv⟩ := splitlines_head_prefix hsp
      exact ⟨[], v, by rw [hv]; rfl⟩
    · have : l ∈ splitlines cs := by
        rw [hsp]
        exact List.mem_cons_of_mem _ hl
      exact contigSub_cons c (ih l this)

/-- The greedy loop emits lines that occur contiguously in the source
line. -/
theorem wrapLineGo_mem_contig {cw : Char → Nat} {width : Int}
    {line : List Char} :
    ∀ (ps : List (List Char × List Char)) (cur : List Char) (total : Nat)
      (isFirst : Bool) (acc : List (List Char)),
      (∃ u, u ++ (cur ++ joinPairs ps) = line) →
      (∀ a ∈ acc, ContigSub a line) →
      ∀ l ∈ wrapLineGo cw width ps cur total isFirst acc,
        ContigSub l line := by
  intro ps
  induction ps with
  | nil =>
    intro cur total isFirst acc hpre hacc l hl
    rw [wrapLineGo_nil] at hl
    obtain ⟨u, hu⟩ := hpre
    by_cases hf : isFirst = true
    · rw [if_pos hf] at hl
      exact hacc l (List.mem_reverse.mp hl)
    · rw [if_neg hf] at hl
      rcases List.mem_cons.mp (List.mem_reverse.mp hl) with rfl | hl2
      · refine ⟨u, [], ?_⟩
        rw [← hu]
        simp [joinPairs]
      · exact hacc l hl2
  | cons p rest ih =>
    obtain ⟨t, w⟩ := p
    intro cur total isFirst acc hpre hacc l hl
    obtain ⟨u, hu⟩ := hpre
    have hjoin : joinPairs ((t, w) :: rest) = t ++ w ++ joinPairs rest := rfl
    rw [hjoin] at hu
    rw [wrapLineGo_cons] at hl
    by_cases hover : (total + widthSum cw t : Int) > width
    · rw [if_pos hover] at hl
      by_cases hf : isFirst = true
      · rw [if_pos hf] at hl
        refine ih [] 0 true ((t ++ w) :: acc)
          ⟨u ++ cur ++ (t ++ w), by rw [← hu]; simp [List.append_assoc]⟩
          ?_ l hl
        intro a ha
        rcases List.mem_cons.mp ha with rfl | ha
        · exact ⟨u ++ cur, joinPairs rest,
            by rw [← hu]; simp [List.append_assoc]⟩
        · exact hacc a ha
      · rw [if_neg hf] at hl
        refine ih (t ++ w) (widthSum cw t + widthSum cw w) false (cur :: acc)
          ⟨u ++ cur, by rw [← hu]; simp [List.append_assoc]⟩ ?_ l hl
        intro a ha
        rcases List.mem_cons.mp ha with rfl | ha
        · exact ⟨u, t ++ w ++ joinPairs rest,
            by rw [← hu]; simp [List.append_assoc]⟩
        · exact hacc a ha
    · rw [if_neg hover] at hl
      exact ih (cur ++ t ++ w) (total + (widthSum cw t + widthSum cw w))
        false acc
        ⟨u, by rw [← hu]; simp [List.append_assoc]⟩ hacc l hl

theorem flatten_tokens_of_lines (cw : Char → Nat) (width : Int) :
    ∀ lines : List (List Char),
      ((lines.map (wrapLine cw width)).flatten.map tokensOf).flatten =
        (lines.map tokensOf).flatten := by
  intro lines
  induction lines with
  | nil => rfl
  | cons line rest ih =>
    simp only [List.map_cons, List.flatten_cons, List.map_append,
      List.flatten_append]
    rw [ih]
    congr 1
    have htk := @wrapLineGo_tokens cw width
      (toPairs (splitWS line)) [] 0 true []
      (wfPairs_toPairs (wfToks_splitWS line)) (fun _ => rfl)
      (fun _ => Or.inl rfl)
    rw [show wrapLine cw width line =
      wrapLineGo cw width (toPairs (splitWS line)) [] 0 true [] from rfl, htk]
    simp [joinPairs_toPairs, joinToks_splitWS]

/-- Claim C7: the ordered sequence of maximal non-whitespace tokens
across all output lines of `word_wrap` equals the token sequence of
the input, and every output line occurs verbatim (interior whitespace
intact; only leading/trailing whitespace trimmed) inside the input. -/
theorem claim_C7_tokens_preserved_and_lines_verbatim (cw : Char → Nat)
    (width : Int) (text : List Char) :
    ((word_wrap cw width text).map tokensOf).flatten = tokensOf text ∧
      ∀ l ∈ word_wrap cw width text, ContigSub l text := by
  have hww : word_wrap cw width text =
      (if (((splitlines text).map (wrapLine cw width)).flatten.map
            strip).isEmpty = true
        then [[]]
        else ((splitlines text).map (wrapLine cw width)).flatten.map strip) :=
    rfl
  constructor
  · rw [hww]
    split
    · rename_i hemp
      have hls : ((splitlines text).map (wrapLine cw width)).flatten = [] := by
        have h2 := List.isEmpty_iff.mp hemp
        exact List.map_eq_nil_iff.mp h2
      have hsl : splitlines text = [] := by
        cases hsl2 : splitlines text with
        | nil => rfl
        | cons a as =>
          rw [hsl2] at hls
          simp at hls
          exact absurd hls.1 (wrapLine_ne_nil cw width a)
      have htext : text = [] := splitlines_eq_nil hsl
      subst htext
      rfl
    · simp only [List.map_map]
      have hfun : tokensOf ∘ strip = tokensOf := funext tokensOf_strip
      rw [hfun, flatten_tokens_of_lines]
      exact tokensOf_flatten_splitlines text
  · intro l hl
    rw [hww] at hl
    split at hl
    · rcases List.mem_singleton.mp hl with rfl
      exact ⟨[], text, rfl⟩
    · rcases List.mem_map.mp hl with ⟨l2, hl2, rfl⟩
      rcases List.mem_flatten.mp hl2 with ⟨lineLs, hlineLs, hl3⟩
      rcases List.mem_map.mp hlineLs with ⟨line, hline, rfl⟩
      have c1 : ContigSub (strip l2) l2 := strip_contig l2
      have c2 : ContigSub l2 line :=
        wrapLineGo_mem_contig (toPairs (splitWS line)) [] 0 true []
          ⟨[], by simp [joinPairs_toPairs, joinToks_splitWS]⟩
          (fun a ha => absurd ha (List.not_mem_nil a)) l2 hl3
      have c3 : ContigSub line text := splitlines_mem_contig line hline
      exact contigSub_trans c1 (contigSub_trans c2 c3)

/-- Witness for C7 at unit widths, budget 3, text `"ab c"`. -/
theorem claim_C7_witness :
    ((word_wrap cw1 3 ['a', 'b', ' ', 'c']).map tokensOf).flatten =
        tokensOf ['a', 'b', ' ', 'c'] ∧
      ContigSub ['a', 'b'] ['a', 'b', ' ', 'c'] :=
  ⟨(claim_C7_tokens_preserved_and_lines_verbatim cw1 3
      ['a', 'b', ' ', 'c']).1,
   (claim_C7_tokens_preserved_and_lines_verbatim cw1 3
      ['a', 'b', ' ', 'c']).2 ['a', 'b'] (by decide)⟩

/-- Claim C5 counterexample: with unit character widths and budget 7,
the text `"abc  def"` (two spaces) wraps to `"abc\ndef"`, but
re-wrapping that result collapses the two lines to the single line
`"abc def"` (the double space became a single space, which now fits),
so `word_wrap_2` is not idempotent. -/
theorem claim_C5_counterexample :
    word_wrap_2 cw1 7 (word_wrap_2 cw1 7
        ['a', 'b', 'c', ' ', ' ', 'd', 'e', 'f']) ≠
      word_wrap_2 cw1 7 ['a', 'b', 'c', ' ', ' ', 'd', 'e', 'f'] := by
  decide

theorem contigSub_mem {l s : List Char} (h : ContigSub l s) {c : Char}
    (hc : c ∈ l) : c ∈ s := by
  obtain ⟨u, v, rfl⟩ := h
  exact List.mem_append_left _ (List.mem_append_right _ hc)

theorem replaceNl_id {l : List Char} (h : ∀ c ∈ l, c ≠ '\n') :
    replaceNl l = l := by
  unfold replaceNl
  rw [List.map_congr_left (fun c hc => if_neg (h c hc))]
  exact List.map_id' l

theorem joinSp_cons_cons (a b : List Char) (ls : List (List Char)) :
    joinSp (a :: b :: ls) = a ++ ' ' :: joinSp (b :: ls) := by
  simp only [joinSp]

theorem joinNl_cons_cons (a b : List Char) (ls : List (List Char)) :
    joinNl (a :: b :: ls) = a ++ '\n' :: joinNl (b :: ls) := by
  simp only [joinNl]

theorem replaceNl_append (a b : List Char) :
    replaceNl (a ++ b) = replaceNl a ++ replaceNl b := by
  simp [replaceNl]

/-- Collapsing newlines in a newline-joined list of newline-free lines
yields the space-joined list. -/
theorem replaceNl_joinNl : ∀ {L : List (List Char)},
    (∀ l ∈ L, ∀ c ∈ l, c ≠ '\n') →
    replaceNl (joinNl L) = joinSp L
  | [], _ => rfl
  | [l], h => replaceNl_id (h l (List.mem_singleton.mpr rfl))
  | l :: l2 :: ls, h => by
    rw [joinNl_cons_cons, joinSp_cons_cons, replaceNl_append,
      replaceNl_id (h l (List.mem_cons_self _ _))]
    congr 1
    show replaceNl ('\n' :: joinNl (l2 :: ls)) = ' ' :: joinSp (l2 :: ls)
    unfold replaceNl
    rw [List.map_cons, if_pos rfl]
    exact congrArg _ (replaceNl_joinNl (fun a ha => h a
      (List.mem_cons_of_mem _ ha)))

theorem mem_joinSp : ∀ {ts : List (List Char)} {c : Char},
    c ∈ joinSp ts → c = ' ' ∨ ∃ tok ∈ ts, c ∈ tok
  | [], c, h => absurd h (List.not_mem_nil c)
  | [t], c, h => Or.inr ⟨t, List.mem_singleton.mpr rfl, h⟩
  | t :: t2 :: ts, c, h => by
    rw [joinSp_cons_cons] at h
    rcases List.mem_append.mp h with h | h
    · exact Or.inr ⟨t, List.mem_cons_self _ _, h⟩
    · rcases List.mem_cons.mp h with rfl | h
      · exact Or.inl rfl
      · rcases mem_joinSp h with h | ⟨tok, htok, hc⟩
        · exact Or.inl h
        · exact Or.inr ⟨tok, List.mem_cons_of_mem _ htok, hc⟩

/-- A text with no line-break characters is a single line. -/
theorem splitlines_no_breaks : ∀ {s : List Char}, s ≠ [] →
    (∀ c ∈ s, c ≠ '\n' ∧ c ≠ '\r') → splitlines s = [s] := by
  intro s
  induction s with
  | nil => intro h _; exact absurd rfl h
  | cons c cs ih =>
    intro _ hc
    have h1 : c ≠ '\n' := (hc c (List.mem_cons_self _ _)).1
    have h2 : c ≠ '\r' := (hc c (List.mem_cons_self _ _)).2
    rw [splitlines_other h1 h2 cs]
    cases hcs : cs with
    | nil => simp [splitlines]
    | cons c2 cs2 =>
      rw [← hcs, ih (by rw [hcs]; simp)
        (fun d hd => hc d (List.mem_cons_of_mem _ hd))]

theorem joinSp_ne_nil : ∀ {ts : List (List Char)}, ts ≠ [] →
    (∀ tok ∈ ts, tok ≠ []) → joinSp ts ≠ []
  | [], h, _ => absurd rfl h
  | [t], _, hts => by
    show t ≠ []
    exact hts t (List.mem_singleton.mpr rfl)
  | t :: t2 :: ts, _, hts => by
    rw [joinSp_cons_cons]
    intro h
    rcases List.append_eq_nil.mp h with ⟨-, h2⟩
    simp at h2

theorem joinSp_append_singleton : ∀ {g : List (List Char)}, g ≠ [] →
    ∀ t : List Char, joinSp (g ++ [t]) = joinSp g ++ ' ' :: t
  | [], h, _ => absurd rfl h
  | [a], _, t => by
    show joinSp [a, t] = a ++ ' ' :: t
    rw [joinSp_cons_cons]
    rfl
  | a :: a2 :: g', _, t => by
    show joinSp (a :: ((a2 :: g') ++ [t])) = joinSp (a :: a2 :: g') ++ _
    rw [List.cons_append, joinSp_cons_cons, joinSp_cons_cons,
      ← List.cons_append a2 g' [t],
      joinSp_append_singleton (by simp) t]
    simp [List.append_assoc]

theorem glue_nil_left (x : List Char) : glue [] x = x := by
  simp [glue]

theorem glue_of_ne {a x : List Char} (ha : a ≠ []) (hx : x ≠ []) :
    glue a x = a ++ ' ' :: x := by
  rw [glue, if_neg ha, if_neg hx]

theorem glue_ne_nil {a x : List Char} (hx : x ≠ []) : glue a x ≠ [] := by
  by_cases ha : a = []
  · subst ha; rw [glue_nil_left]; exact hx
  · rw [glue_of_ne ha hx]
    intro h
    rcases List.append_eq_nil.mp h with ⟨-, h2⟩
    simp at h2

theorem glue_assoc {a b c : List Char} (hb : b ≠ []) (hc : c ≠ []) :
    glue (glue a b) c = glue a (glue b c) := by
  by_cases ha : a = []
  · subst ha
    rw [glue_nil_left, glue_nil_left]
  · rw [glue_of_ne ha hb, glue_of_ne hb hc,
      glue_of_ne (by simp [glue_of_ne ha hb] : a ++ ' ' :: b ≠ []) hc,
      glue_of_ne ha (by simp : b ++ ' ' :: c ≠ [])]
    simp [List.append_assoc]

theorem joinSp_append_single_glue {A : List (List Char)} {x : List Char}
    (hA : ∀ l ∈ A, l ≠ []) (hx : x ≠ []) :
    joinSp (A ++ [x]) = glue (joinSp A) x := by
  cases A with
  | nil =>
    have h0 : joinSp ([] : List (List Char)) = [] := by simp [joinSp]
    rw [h0, glue_nil_left, List.nil_append]
    simp [joinSp]
  | cons a A' =>
    rw [glue_of_ne (joinSp_ne_nil (by simp) hA) hx]
    exact joinSp_append_singleton (by simp) x

theorem interleaveSp_cons_cons (t t2 : List Char) (ts : List (List Char)) :
    interleaveSp (t :: t2 :: ts) = t :: [' '] :: interleaveSp (t2 :: ts) := by
  simp only [interleaveSp]

theorem mkPairs_cons_cons (t t2 : List Char) (ts : List (List Char)) :
    mkPairs (t :: t2 :: ts) = (t, [' ']) :: mkPairs (t2 :: ts) := by
  simp only [mkPairs]

theorem stripTrailing_last_nws {y : List Char} {d : Char}
    (hd : isSpace d = false) : stripTrailing (y ++ [d]) = y ++ [d] := by
  show ((y ++ [d]).reverse.dropWhile isSpace).reverse = y ++ [d]
  simp [List.dropWhile_cons, hd]

theorem stripLeading_first_nws {y : List Char} {d : Char}
    (hd : isSpace d = false) : stripLeading (d :: y) = d :: y := by
  simp [stripLeading, List.dropWhile_cons, hd]

theorem joinSp_head_nws : ∀ {g : List (List Char)}, g ≠ [] →
    (∀ tok ∈ g, tok ≠ [] ∧ AllNW tok) →
    ∃ d y, joinSp g = d :: y ∧ isSpace d = false
  | [], h, _ => absurd rfl h
  | [t], _, hcl => by
    obtain ⟨ht, hnw⟩ := hcl t (List.mem_singleton.mpr rfl)
    obtain ⟨c, t', rfl⟩ := List.exists_cons_of_ne_nil ht
    exact ⟨c, t', rfl, hnw c (List.mem_cons_self _ _)⟩
  | t :: t2 :: g', _, hcl => by
    obtain ⟨ht, hnw⟩ := hcl t (List.mem_cons_self _ _)
    obtain ⟨c, t', rfl⟩ := List.exists_cons_of_ne_nil ht
    exact ⟨c, t' ++ ' ' :: joinSp (t2 :: g'),
      by rw [joinSp_cons_cons]; rfl, hnw c (List.mem_cons_self _ _)⟩

theorem joinSp_last_nws : ∀ {g : List (List Char)}, g ≠ [] →
    (∀ tok ∈ g, tok ≠ [] ∧ AllNW tok) →
    ∃ y d, joinSp g = y ++ [d] ∧ isSpace d = false
  | [], h, _ => absurd rfl h
  | [t], _, hcl => by
    obtain ⟨ht, hnw⟩ := hcl t (List.mem_singleton.mpr rfl)
    rcases List.eq_nil_or_concat t with rfl | ⟨y, d, rfl⟩
    · exact absurd rfl ht
    · refine ⟨y, d, ?_, hnw d (by simp)⟩
      show y.concat d = y ++ [d]
      simp
  | t :: t2 :: g', _, hcl => by
    obtain ⟨y, d, hyd, hdnw⟩ := @joinSp_last_nws (t2 :: g') (by simp)
      (fun tok htok => hcl tok (List.mem_cons_of_mem _ htok))
    refine ⟨t ++ ' ' :: y, d, ?_, hdnw⟩
    rw [joinSp_cons_cons, hyd]
    simp

/-- A clean single-space join of nonempty non-whitespace tokens is
unchanged by `strip`, even with trailing whitespace appended. -/
theorem strip_joinSp_ws {g : List (List Char)} (hg : g ≠ [])
    (hcl : ∀ tok ∈ g, tok ≠ [] ∧ AllNW tok) {z : List Char}
    (hz : AllWS z) : strip (joinSp g ++ z) = joinSp g := by
  obtain ⟨y, d, hyd, hd⟩ := joinSp_last_nws hg hcl
  obtain ⟨e, y2, hey, he⟩ := joinSp_head_nws hg hcl
  unfold strip
  rw [stripTrailing_append_allws hz, hyd, stripTrailing_last_nws hd, ← hyd,
    hey, stripLeading_first_nws he]

theorem strip_joinSp {g : List (List Char)} (hg : g ≠ [])
    (hcl : ∀ tok ∈ g, tok ≠ [] ∧ AllNW tok) :
    strip (joinSp g) = joinSp g := by
  have h := @strip_joinSp_ws g hg hcl []
    (fun c hc => absurd hc (List.not_mem_nil c))
  simpa using h

/-- Prepending a non-whitespace run extends the head of `splitWS`. -/
theorem splitWS_prepend_nws : ∀ {t : List Char}, AllNW t →
    ∀ {s : List Char} {h0 : List Char} {rest : List (List Char)},
      splitWS s = h0 :: rest → splitWS (t ++ s) = (t ++ h0) :: rest := by
  intro t
  induction t with
  | nil => intro _ s h0 rest hs; simpa using hs
  | cons c t' ih =>
    intro hnw s h0 rest hs
    have hc : isSpace c = false := hnw c (List.mem_cons_self _ _)
    have ih' : splitWS (t' ++ s) = (t' ++ h0) :: rest :=
      ih (fun d hd => hnw d (List.mem_cons_of_mem _ hd)) hs
    show splitWS (c :: (t' ++ s)) = ((c :: t') ++ h0) :: rest
    simp [splitWS, ih', hc]

/-- Prepending a single space to a string whose `splitWS` starts with a
nonempty (non-whitespace) head inserts an empty token and the space run. -/
theorem splitWS_cons_sp {s : List Char} {h0 : List Char}
    {rest : List (List Char)} (hs : splitWS s = h0 :: rest)
    (hh : h0 ≠ []) : splitWS (' ' :: s) = [] :: [' '] :: h0 :: rest := by
  obtain ⟨c0, h0', rfl⟩ := List.exists_cons_of_ne_nil hh
  have hsp : isSpace ' ' = true := by decide
  simp [splitWS, hs, hsp]

/-- `splitWS` of a clean single-space join recovers the tokens with
single-space separator runs. -/
theorem splitWS_joinSp : ∀ {ts : List (List Char)}, ts ≠ [] →
    (∀ tok ∈ ts, tok ≠ [] ∧ AllNW tok) →
    splitWS (joinSp ts) = interleaveSp ts
  | [], h, _ => absurd rfl h
  | [t], _, hcl => by
    have hnw : AllNW t := (hcl t (List.mem_singleton.mpr rfl)).2
    have h := @splitWS_prepend_nws t hnw [] [] [] rfl
    simpa using h
  | t :: t2 :: ts', _, hcl => by
    have hnw : AllNW t := (hcl t (List.mem_cons_self _ _)).2
    have ht2 : t2 ≠ [] := (hcl t2 (List.mem_cons_of_mem _
      (List.mem_cons_self _ _))).1
    have IH : splitWS (joinSp (t2 :: ts')) = interleaveSp (t2 :: ts') :=
      splitWS_joinSp (by simp)
        (fun tok htok => hcl tok (List.mem_cons_of_mem _ htok))
    have hhead : ∃ tail, interleaveSp (t2 :: ts') = t2 :: tail := by
      cases ts' with
      | nil => exact ⟨[], rfl⟩
      | cons a l => exact ⟨[' '] :: interleaveSp (a :: l),
          by rw [interleaveSp_cons_cons]⟩
    obtain ⟨tail, htail⟩ := hhead
    have h2 : splitWS (' ' :: joinSp (t2 :: ts')) =
        [] :: [' '] :: t2 :: tail :=
      splitWS_cons_sp (by rw [IH, htail]) ht2
    have h3 := splitWS_prepend_nws hnw h2
    rw [joinSp_cons_cons, interleaveSp_cons_cons, h3, htail]
    simp

/-- Pairing the interleaved form gives tokens paired with single
spaces (empty for the last). -/
theorem toPairs_interleaveSp : ∀ {ts : List (List Char)}, ts ≠ [] →
    toPairs (interleaveSp ts) = mkPairs ts
  | [], h => absurd rfl h
  | [t], _ => by simp [interleaveSp, toPairs, mkPairs]
  | t :: t2 :: ts', _ => by
    rw [interleaveSp_cons_cons, mkPairs_cons_cons]
    show toPairs (t :: [' '] :: interleaveSp (t2 :: ts')) = _
    rw [show toPairs (t :: [' '] :: interleaveSp (t2 :: ts')) =
      (t, [' ']) :: toPairs (interleaveSp (t2 :: ts')) from rfl,
      toPairs_interleaveSp (by simp)]

theorem allWS_sp : AllWS [' '] := allWS_cons (by decide) allWS_nil

theorem map_strip_rev_ne {acc : List (List Char)}
    (hacc : ∀ l ∈ acc, strip l ≠ []) :
    ∀ l ∈ acc.reverse.map strip, l ≠ [] := by
  intro l hl
  rcases List.mem_map.mp hl with ⟨a, ha, rfl⟩
  exact hacc a (List.mem_reverse.mp ha)

/-- Core reconstruction lemma: running the greedy loop on a clean
single-space-separated token list, stripping each produced line, and
rejoining everything with single spaces reproduces the already-emitted
prefix glued to the original token join.  The invariants say the
current line is itself a clean join followed by one trailing space. -/
theorem wrapLineGo_joinSp_strip {cw : Char → Nat} {width : Int} :
    ∀ (ts : List (List Char)) (cur : List Char) (total : Nat)
      (isFirst : Bool) (acc : List (List Char)),
      ts ≠ [] →
      (∀ tok ∈ ts, tok ≠ [] ∧ AllNW tok) →
      (isFirst = true → cur = []) →
      (isFirst = false → ∃ g, g ≠ [] ∧
        (∀ tok ∈ g, tok ≠ [] ∧ AllNW tok) ∧ cur = joinSp g ++ [' ']) →
      (∀ l ∈ acc, strip l ≠ []) →
      joinSp ((wrapLineGo cw width (mkPairs ts) cur total isFirst
          acc).map strip) =
        glue (joinSp (acc.reverse.map strip))
          (glue (strip cur) (joinSp ts)) := by
  intro ts
  induction ts with
  | nil => intro cur total isF acc h; exact absurd rfl h
  | cons t rest ih =>
    intro cur total isF acc _ hcl hF hNF hacc
    have htne : t ≠ [] := (hcl t (List.mem_cons_self _ _)).1
    have htnw : AllNW t := (hcl t (List.mem_cons_self _ _)).2
    have hAne : ∀ l ∈ acc.reverse.map strip, l ≠ [] :=
      map_strip_rev_ne hacc
    cases rest with
    | nil =>
      rw [show mkPairs [t] = [(t, [])] from rfl, wrapLineGo_cons]
      by_cases hover : (total + widthSum cw t : Int) > width
      · rw [if_pos hover]
        by_cases hf : isF = true
        · have hcur : cur = [] := hF hf
          subst hcur
          rw [if_pos hf, wrapLineGo_nil, if_pos rfl,
            List.reverse_cons, List.map_append, List.map_cons,
            List.map_nil, strip_token_ws htnw allWS_nil,
            joinSp_append_single_glue hAne htne,
            show strip ([] : List Char) = [] from rfl, glue_nil_left]
          rfl
        · have hf' : isF = false := by
            cases isF with
            | false => rfl
            | true => exact absurd rfl hf
          obtain ⟨g, hgne, hgcl, hcur⟩ := hNF hf'
          have hgJne : joinSp g ≠ [] :=
            joinSp_ne_nil hgne (fun tok htok => (hgcl tok htok).1)
          rw [if_neg hf, wrapLineGo_nil, if_neg (by simp),
            List.reverse_cons, List.reverse_cons, List.map_append,
            List.map_append, List.map_cons, List.map_nil, List.map_cons,
            List.map_nil, strip_token_ws htnw allWS_nil,
            hcur, strip_joinSp_ws hgne hgcl allWS_sp]
          rw [joinSp_append_single_glue (by
              intro l hl
              rcases List.mem_append.mp hl with hl | hl
              · exact hAne l hl
              · rcases List.mem_singleton.mp hl with rfl
                exact hgJne) htne,
            joinSp_append_single_glue hAne hgJne,
            glue_assoc hgJne htne]
          rfl
      · rw [if_neg hover, wrapLineGo_nil, if_neg (by simp),
          List.reverse_cons, List.map_append, List.map_cons, List.map_nil]
        by_cases hf : isF = true
        · have hcur : cur = [] := hF hf
          subst hcur
          rw [show ([] : List Char) ++ t ++ [] = t ++ [] from
              by rw [List.nil_append],
            strip_token_ws htnw allWS_nil,
            joinSp_append_single_glue hAne htne,
            show strip ([] : List Char) = [] from rfl, glue_nil_left]
          rfl
        · have hf' : isF = false := by
            cases isF with
            | false => rfl
            | true => exact absurd rfl hf
          obtain ⟨g, hgne, hgcl, hcur⟩ := hNF hf'
          have hgJne : joinSp g ≠ [] :=
            joinSp_ne_nil hgne (fun tok htok => (hgcl tok htok).1)
          have hgtcl : ∀ tok ∈ g ++ [t], tok ≠ [] ∧ AllNW tok := by
            intro tok htok
            rcases List.mem_append.mp htok with h | h
            · exact hgcl tok h
            · rcases List.mem_singleton.mp h with rfl
              exact ⟨htne, htnw⟩
          have hgtJne : joinSp (g ++ [t]) ≠ [] :=
            joinSp_ne_nil (by simp) (fun tok htok => (hgtcl tok htok).1)
          have hcurt : cur ++ t ++ [] = joinSp (g ++ [t]) := by
            rw [joinSp_append_singleton hgne, hcur]
            simp
          rw [hcurt, strip_joinSp (by simp) hgtcl,
            joinSp_append_single_glue hAne hgtJne,
            joinSp_append_singleton hgne,
            hcur, strip_joinSp_ws hgne hgcl allWS_sp,
            show joinSp [t] = t from rfl,
            glue_of_ne hgJne htne]
    | cons t2 ts' =>
      have hrest_ne : (t2 :: ts') ≠ ([] : List (List Char)) := by simp
      have hrest_cl : ∀ tok ∈ t2 :: ts', tok ≠ [] ∧ AllNW tok :=
        fun tok htok => hcl tok (List.mem_cons_of_mem _ htok)
      have hJne : joinSp (t2 :: ts') ≠ [] :=
        joinSp_ne_nil hrest_ne (fun tok htok => (hrest_cl tok htok).1)
      rw [mkPairs_cons_cons, wrapLineGo_cons]
      by_cases hover : (total + widthSum cw t : Int) > width
      · rw [if_pos hover]
        by_cases hf : isF = true
        · have hcur : cur = [] := hF hf
          subst hcur
          rw [if_pos hf]
          rw [ih [] 0 true ((t ++ [' ']) :: acc) hrest_ne hrest_cl
            (fun _ => rfl) (fun h => by simp at h) (by
              intro l hl
              rcases List.mem_cons.mp hl with rfl | hl
              · rw [strip_token_ws htnw allWS_sp]
                exact htne
              · exact hacc l hl),
            List.reverse_cons, List.map_append, List.map_cons,
            List.map_nil, strip_token_ws htnw allWS_sp,
            joinSp_append_single_glue hAne htne,
            show strip ([] : List Char) = [] from rfl]
          rw [glue_nil_left, glue_nil_left, glue_assoc htne hJne,
            glue_of_ne htne hJne, joinSp_cons_cons]
        · have hf' : isF = false := by
            cases isF with
            | false => rfl
            | true => exact absurd rfl hf
          obtain ⟨g, hgne, hgcl, hcur⟩ := hNF hf'
          have hgJne : joinSp g ≠ [] :=
            joinSp_ne_nil hgne (fun tok htok => (hgcl tok htok).1)
          rw [if_neg hf]
          rw [ih (t ++ [' ']) _ false (cur :: acc) hrest_ne hrest_cl
            (fun h => by simp at h)
            (fun _ => ⟨[t], by simp, (by
                intro tok htok
                rcases List.mem_singleton.mp htok with rfl
                exact ⟨htne, htnw⟩), rfl⟩)
            (by
              intro l hl
              rcases List.mem_cons.mp hl with rfl | hl
              · rw [hcur, strip_joinSp_ws hgne hgcl allWS_sp]
                exact hgJne
              · exact hacc l hl),
            List.reverse_cons, List.map_append, List.map_cons,
            List.map_nil, strip_token_ws htnw allWS_sp,
            hcur, strip_joinSp_ws hgne hgcl allWS_sp,
            joinSp_append_single_glue hAne hgJne,
            glue_assoc hgJne (glue_ne_nil hJne),
            glue_of_ne htne hJne, joinSp_cons_cons]
      · rw [if_neg hover]
        by_cases hf : isF = true
        · have hcur : cur = [] := hF hf
          subst hcur
          rw [ih ([] ++ t ++ [' ']) _ false acc hrest_ne hrest_cl
            (fun h => by simp at h)
            (fun _ => ⟨[t], by simp, (by
                intro tok htok
                rcases List.mem_singleton.mp htok with rfl
                exact ⟨htne, htnw⟩), by
                  show [] ++ t ++ [' '] = t ++ [' ']
                  rw [List.nil_append]⟩)
            hacc,
            show ([] : List Char) ++ t ++ [' '] = t ++ [' '] from
              by rw [List.nil_append],
            strip_token_ws htnw allWS_sp,
            show strip ([] : List Char) = [] from rfl]
          rw [glue_nil_left, glue_of_ne htne hJne, joinSp_cons_cons]
        · have hf' : isF = false := by
            cases isF with
            | false => rfl
            | true => exact absurd rfl hf
          obtain ⟨g, hgne, hgcl, hcur⟩ := hNF hf'
          have hgJne : joinSp g ≠ [] :=
            joinSp_ne_nil hgne (fun tok htok => (hgcl tok htok).1)
          have hgtcl : ∀ tok ∈ g ++ [t], tok ≠ [] ∧ AllNW tok := by
            intro tok htok
            rcases List.mem_append.mp htok with h | h
            · exact hgcl tok h
            · rcases List.mem_singleton.mp h with rfl
              exact ⟨htne, htnw⟩
          have hgtJne : joinSp (g ++ [t]) ≠ [] :=
            joinSp_ne_nil (by simp) (fun tok htok => (hgtcl tok htok).1)
          have hcurt : cur ++ t ++ [' '] = joinSp (g ++ [t]) ++ [' '] := by
            rw [joinSp_append_singleton hgne, hcur]
            simp
          rw [ih (cur ++ t ++ [' ']) _ false acc hrest_ne hrest_cl
            (fun h => by simp at h)
            (fun _ => ⟨g ++ [t], by simp, hgtcl, hcurt⟩)
            hacc,
            hcurt, strip_joinSp_ws (by simp) hgtcl allWS_sp,
            glue_of_ne hgtJne hJne, joinSp_append_singleton hgne,
            hcur, strip_joinSp_ws hgne hgcl allWS_sp,
            joinSp_cons_cons, glue_of_ne hgJne (by simp)]
          simp [List.append_assoc]

/-- Every output line of `word_wrap` occurs verbatim inside the input. -/
theorem word_wrap_mem_contig (cw : Char → Nat) (width : Int)
    (text : List Char) : ∀ l ∈ word_wrap cw width text, ContigSub l text := by
  have hww : word_wrap cw width text =
      (if (((splitlines text).map (wrapLine cw width)).flatten.map
            strip).isEmpty = true
        then [[]]
        else ((splitlines text).map (wrapLine cw width)).flatten.map strip) :=
    rfl
  intro l hl
  rw [hww] at hl
  split at hl
  · rcases List.mem_singleton.mp hl with rfl
    exact ⟨[], text, rfl⟩
  · rcases List.mem_map.mp hl with ⟨l2, hl2, rfl⟩
    rcases List.mem_flatten.mp hl2 with ⟨lineLs, hlineLs, hl3⟩
    rcases List.mem_map.mp hlineLs with ⟨line, hline, rfl⟩
    have c1 : ContigSub (strip l2) l2 := strip_contig l2
    have c2 : ContigSub l2 line :=
      wrapLineGo_mem_contig (toPairs (splitWS line)) [] 0 true []
        ⟨[], by simp [joinPairs_toPairs, joinToks_splitWS]⟩
        (fun a ha => absurd ha (List.not_mem_nil a)) l2 hl3
    have c3 : ContigSub line text := splitlines_mem_contig line hline
    exact contigSub_trans c1 (contigSub_trans c2 c3)

theorem joinSp_no_breaks {ts : List (List Char)}
    (hcl : ∀ tok ∈ ts, tok ≠ [] ∧ AllNW tok) :
    ∀ c ∈ joinSp ts, c ≠ '\n' ∧ c ≠ '\r' := by
  intro c hc
  rcases mem_joinSp hc with rfl | ⟨tok, htok, hctok⟩
  · exact ⟨by decide, by decide⟩
  · have hnw := (hcl tok htok).2 c hctok
    constructor <;> (rintro rfl; simp [isSpace] at hnw)

/-- Wrapping a clean single-space join and rejoining the stripped lines
with single spaces reproduces the original text. -/
theorem joinSp_word_wrap_joinSp {cw : Char → Nat} {width : Int}
    {ts : List (List Char)} (hts : ts ≠ [])
    (hcl : ∀ tok ∈ ts, tok ≠ [] ∧ AllNW tok) :
    joinSp (word_wrap cw width (joinSp ts)) = joinSp ts := by
  have hne : joinSp ts ≠ [] :=
    joinSp_ne_nil hts (fun tok htok => (hcl tok htok).1)
  have hsl : splitlines (joinSp ts) = [joinSp ts] :=
    splitlines_no_breaks hne (joinSp_no_breaks hcl)
  have hww : word_wrap cw width (joinSp ts) =
      (wrapLine cw width (joinSp ts)).map strip := by
    have h0 : word_wrap cw width (joinSp ts) =
        (if (((splitlines (joinSp ts)).map
              (wrapLine cw width)).flatten.map strip).isEmpty = true
          then [[]]
          else ((splitlines (joinSp ts)).map
            (wrapLine cw width)).flatten.map strip) := rfl
    have hnemp : ¬ ((((wrapLine cw width (joinSp ts)).map
        strip).isEmpty) = true) := by
      intro h
      exact wrapLine_ne_nil cw width (joinSp ts)
        (List.map_eq_nil_iff.mp (List.isEmpty_iff.mp h))
    rw [h0, hsl]
    simp only [List.map_cons, List.map_nil, List.flatten_cons,
      List.flatten_nil, List.append_nil]
    rw [if_neg hnemp]
  have hwl : wrapLine cw width (joinSp ts) =
      wrapLineGo cw width (mkPairs ts) [] 0 true [] := by
    unfold wrapLine
    rw [splitWS_joinSp hts hcl, toPairs_interleaveSp hts]
  rw [hww, hwl, wrapLineGo_joinSp_strip ts [] 0 true [] hts hcl
    (fun _ => rfl) (fun h => by simp at h)
    (fun l hl => absurd hl (List.not_mem_nil l))]
  rw [show ((([] : List (List Char)).reverse).map strip) =
      ([] : List (List Char)) from rfl,
    show joinSp ([] : List (List Char)) = [] from rfl,
    glue_nil_left, show strip ([] : List Char) = [] from rfl,
    glue_nil_left]

/-- Claim C5 (amended): `word_wrap_2` is idempotent on texts that,
after newlines are collapsed to spaces, are a single-space-separated
sequence of one or more nonempty whitespace-free words (no leading,
trailing, or repeated whitespace).  On general texts idempotence
fails (see the counterexample with a double space). -/
theorem claim_C5_amended_idempotent (cw : Char → Nat) (width : Int)
    (t : List Char)
    (h : ∃ ts, ts ≠ [] ∧ (∀ tok ∈ ts, tok ≠ [] ∧ AllNW tok) ∧
      replaceNl t = joinSp ts) :
    word_wrap_2 cw width (word_wrap_2 cw width t) =
      word_wrap_2 cw width t := by
  obtain ⟨ts, hts, hcl, hrep⟩ := h
  show joinNl (word_wrap cw width (replaceNl
      (joinNl (word_wrap cw width (replaceNl t))))) =
    joinNl (word_wrap cw width (replaceNl t))
  rw [hrep]
  have hnol : ∀ l ∈ word_wrap cw width (joinSp ts), ∀ c ∈ l, c ≠ '\n' := by
    intro l hl c hc
    exact (joinSp_no_breaks hcl c
      (contigSub_mem (word_wrap_mem_contig cw width (joinSp ts) l hl) hc)).1
  rw [replaceNl_joinNl hnol, joinSp_word_wrap_joinSp hts hcl]

/-- Witness for the amended C5 at unit widths, budget 3, on the clean
text `"ab cd"` (which wraps into two lines). -/
theorem claim_C5_witness :
    word_wrap_2 cw1 3 (word_wrap_2 cw1 3 ['a', 'b', ' ', 'c', 'd']) =
      word_wrap_2 cw1 3 ['a', 'b', ' ', 'c', 'd'] :=
  claim_C5_amended_idempotent cw1 3 ['a', 'b', ' ', 'c', 'd']
    ⟨[['a', 'b'], ['c', 'd']], by decide, by
      show ∀ tok ∈ [['a', 'b'], ['c', 'd']], tok ≠ [] ∧
        ∀ c ∈ tok, isSpace c = false
      decide, by decide⟩
